import Mathlib

/-!
# Verification of the JSON accuracy engine (`ocr_benchmark/evaluation/json.py`)

This file gives a shallow embedding of the structural JSON diff / accuracy
scoring module of the repository and settles the spec's claims about it.

Modelling conventions:
* Python JSON-like values are the inductive `JVal`.  Python `dict`s are
  association lists (`List (String × JVal)`) in insertion order; genuine
  Python dicts never contain duplicate keys, which is captured by the
  well-formedness predicate `JVal.wf`.
* JSON numbers are modelled as integers (`Int`); every number appearing in
  the spec's claims is an integer.  Python's `==`, under which
  `True == 1` and `False == 0`, is modelled by `pyEq`.
* Scores are rationals (`ℚ`); Python's `round(score, 4)` is modelled by
  `round4` (round half to even, on the exact rational value).
* `_diff_json` descends strictly into its first argument, so it is defined
  by structural recursion on a fuel equal to `sizeV` of the first argument
  (`diffF`); a fuel-irrelevance lemma shows the fuel never runs out, so the
  wrapper `diffJson` is the function of the source.  Keeping all recursion
  structural makes every definition evaluate by `decide`/`rfl`.
-/

/-- A Python JSON-like value: `None`, `bool`, number, `str`, `list`, `dict`.
Dicts are association lists in insertion order. -/
inductive JVal where
  | null
  | bool (b : Bool)
  | num (n : Int)
  | str (s : String)
  | arr (elems : List JVal)
  | obj (fields : List (String × JVal))

mutual

/-- Structural (Lean-level) equality test on `JVal`, used to derive
decidable equality. -/
def beqV : JVal → JVal → Bool
  | .null, .null => true
  | .bool x, .bool y => x == y
  | .num x, .num y => x == y
  | .str x, .str y => x == y
  | .arr xs, .arr ys => beqVs xs ys
  | .obj xs, .obj ys => beqKVs xs ys
  | _, _ => false

def beqVs : List JVal → List JVal → Bool
  | [], [] => true
  | x :: xs, y :: ys => beqV x y && beqVs xs ys
  | _, _ => false

def beqKVs : List (String × JVal) → List (String × JVal) → Bool
  | [], [] => true
  | (k, v) :: r, (k', v') :: r' => k == k' && beqV v v' && beqKVs r r'
  | _, _ => false

end

theorem beq_spec :
    (∀ a b, beqV a b = true ↔ a = b) ∧
    (∀ kvs kvs', beqKVs kvs kvs' = true ↔ kvs = kvs') ∧
    (∀ xs ys, beqVs xs ys = true ↔ xs = ys) := by
  apply beqV.mutual_induct (motive_1 := fun a b => beqV a b = true ↔ a = b)
    (motive_2 := fun kvs kvs' => beqKVs kvs kvs' = true ↔ kvs = kvs')
    (motive_3 := fun xs ys => beqVs xs ys = true ↔ xs = ys)
  case case1 => simp [beqV]
  case case2 => intro x y; cases x <;> cases y <;> simp [beqV]
  case case3 => intro x y; simp [beqV]
  case case4 => intro x y; simp [beqV]
  case case5 => intro xs ys ih; simpa [beqV] using ih
  case case6 => intro xs ys ih; simpa [beqV] using ih
  case case7 => intro t x h1 h2 h3 h4 h5 h6; cases t <;> cases x <;> simp_all [beqV]
  case case8 => simp [beqVs]
  case case9 => intro x xs y ys ih1 ih2; simp [beqVs, ih1, ih2]
  case case10 =>
    intro t x h1 h2
    cases t with
    | nil =>
      cases x with
      | nil => exact (h1 rfl rfl).elim
      | cons y ys => simp [beqVs]
    | cons a as =>
      cases x with
      | nil => simp [beqVs]
      | cons y ys => exact (h2 a as y ys rfl rfl).elim
  case case11 => simp [beqKVs]
  case case12 =>
    intro k v r k' v' r' ih1 ih2
    simp [beqKVs, ih1, ih2, and_assoc]
  case case13 =>
    intro t x h1 h2
    cases t with
    | nil =>
      cases x with
      | nil => exact (h1 rfl rfl).elim
      | cons q r' => simp [beqKVs]
    | cons p r =>
      cases x with
      | nil => simp [beqKVs]
      | cons q r' =>
        obtain ⟨k, v⟩ := p
        obtain ⟨k', v'⟩ := q
        exact (h2 k v r k' v' r' rfl rfl).elim

instance : DecidableEq JVal := fun a b => decidable_of_iff _ (beq_spec.1 a b)

mutual

/-- Size of a value; used as recursion fuel and induction measure. -/
def sizeV : JVal → Nat
  | .arr xs => 1 + sizeVs xs
  | .obj kvs => 1 + sizeKVs kvs
  | _ => 1

def sizeVs : List JVal → Nat
  | [] => 1
  | x :: xs => 1 + sizeV x + sizeVs xs

def sizeKVs : List (String × JVal) → Nat
  | [] => 1
  | (_, v) :: r => 2 + sizeV v + sizeKVs r

end

/-- Python `d[key]` / `key in d` on a dict modelled as an association list:
the first binding wins (real dicts have no duplicate keys). -/
def lookupKV : List (String × JVal) → String → Option JVal
  | [], _ => none
  | (k, v) :: rest, key => if k = key then some v else lookupKV rest key

/-- The keys of a dict, in insertion order (`d.keys()`). -/
def keysOf (kvs : List (String × JVal)) : List String := kvs.map Prod.fst

/-- `isinstance(v, dict)` -/
def JVal.isDict : JVal → Bool
  | .obj _ => true
  | _ => false

/-- `isinstance(v, list)` -/
def JVal.isList : JVal → Bool
  | .arr _ => true
  | _ => false

/-- Python truthiness of a value (`if not obj`, `if child`). -/
def truthy : JVal → Bool
  | .null => false
  | .bool b => b
  | .num n => n != 0
  | .str s => !s.isEmpty
  | .arr xs => !xs.isEmpty
  | .obj kvs => !kvs.isEmpty

/-- `all(isinstance(x, dict) for x in xs)` -/
def allDicts (xs : List JVal) : Bool := xs.all JVal.isDict

/-- Python `"__" in key`: the key contains two consecutive underscores. -/
def hasMarker : List Char → Bool
  | '_' :: '_' :: _ => true
  | _ :: rest => hasMarker rest
  | [] => false

/-- `key.endswith(suffix)` -/
def strEndsWith (s suffix : String) : Bool := suffix.data.isSuffixOf s.data

/-- Lexicographic comparison of character lists by code point; Python's
string `<=` used by `sorted`. -/
def lexLeB : List Char → List Char → Bool
  | [], _ => true
  | _ :: _, [] => false
  | c :: cs, d :: ds =>
    if c.toNat < d.toNat then true
    else if d.toNat < c.toNat then false
    else lexLeB cs ds

/-- Python's string order as a decidable relation. -/
def strLe (a b : String) : Prop := lexLeB a.data b.data = true

instance : DecidableRel strLe := fun _ _ => inferInstanceAs (Decidable (_ = true))

/-- `s.upper()` mapped over the characters (all strings in the claims are
ASCII, where Python's `upper` is exactly per-character uppercasing). -/
def strUpper (s : String) : String := ⟨s.data.map Char.toUpper⟩

/-- The keys of one dict are pairwise distinct. -/
def nodupKeys : List (String × JVal) → Bool
  | [] => true
  | (k, _) :: rest => !(rest.any (fun p => p.1 == k)) && nodupKeys rest

mutual

/-- Well-formedness: no dict anywhere inside the value has duplicate keys.
Genuine Python JSON-like data always satisfies this; association lists with
repeated keys are artifacts of the embedding, not representable in Python. -/
def wfV : JVal → Bool
  | .arr xs => wfItems xs
  | .obj kvs => nodupKeys kvs && wfFields kvs
  | _ => true

def wfItems : List JVal → Bool
  | [] => true
  | x :: xs => wfV x && wfItems xs

def wfFields : List (String × JVal) → Bool
  | [] => true
  | (_, v) :: r => wfV v && wfFields r

end

/-- Well-formedness of a JSON-like value (see `wfV`). -/
def JVal.wf (v : JVal) : Bool := wfV v

mutual

/-- Python `==` (source: the `a == b` / `va == vb` comparisons in
`_diff_json`).  Booleans compare equal to the numbers 0/1 as in Python;
dicts compare as unordered key-value maps; lists compare element-wise. -/
def pyEq : JVal → JVal → Bool
  | .null, .null => true
  | .bool x, .bool y => x == y
  | .bool x, .num n => (if x then (1 : Int) else 0) == n
  | .num n, .bool y => n == (if y then (1 : Int) else 0)
  | .num m, .num n => m == n
  | .str s, .str t => s == t
  | .arr xs, .arr ys => pyEqList xs ys
  | .obj xs, .obj ys => xs.length == ys.length && pyEqFields xs ys
  | _, _ => false

def pyEqList : List JVal → List JVal → Bool
  | [], [] => true
  | x :: xs, y :: ys => pyEq x y && pyEqList xs ys
  | _, _ => false

def pyEqFields : List (String × JVal) → List (String × JVal) → Bool
  | [], _ => true
  | (k, v) :: rest, bvs =>
    (match lookupKV bvs k with
     | some w => pyEq v w
     | none => false) && pyEqFields rest bvs

end

mutual

/-- `count_total_fields` (source lines 311-342): number of leaf fields of a
plain JSON value. -/
def count_total_fields : JVal → Nat
  | .arr xs => ctfItems xs
  | .obj kvs => ctfFields kvs
  | _ => 0

/-- One list item (source lines 320-324): a dict item is traversed, any
other item counts 1. -/
def ctfItem : JVal → Nat
  | .obj kvs => ctfFields kvs
  | _ => 1

def ctfItems : List JVal → Nat
  | [] => 0
  | item :: rest => ctfItem item + ctfItems rest

/-- One dict value (source lines 330-339): scalars and nulls count 1, list
values are counted item-wise, dict values are traversed. -/
def ctfValue : JVal → Nat
  | .null => 1
  | .bool _ => 1
  | .num _ => 1
  | .str _ => 1
  | .arr xs => ctfItems xs
  | .obj kvs => ctfFields kvs

/-- Dict fields (source lines 327-339); keys containing `"__"` are
skipped. -/
def ctfFields : List (String × JVal) → Nat
  | [] => 0
  | (k, v) :: rest => (if hasMarker k.data then 0 else ctfValue v) + ctfFields rest

end

/-- The mutable counter triple of `count_changes`. -/
structure Changes where
  additions : Nat
  deletions : Nat
  modifications : Nat
deriving DecidableEq

instance : Add Changes :=
  ⟨fun c d => ⟨c.additions + d.additions, c.deletions + d.deletions,
    c.modifications + d.modifications⟩⟩

def Changes.zero : Changes := ⟨0, 0, 0⟩

/-- The modification-box rule of `count_changes` (source lines 271-278 and
292-298): `modifications += count_total_fields(new) or 1` when the old
value is null and the new one is not, else
`modifications += count_total_fields(old) or 1`. -/
def modBoxCount (old new : JVal) : Changes :=
  if old = JVal.null ∧ new ≠ JVal.null then
    ⟨0, 0, if count_total_fields new = 0 then 1 else count_total_fields new⟩
  else
    ⟨0, 0, if count_total_fields old = 0 then 1 else count_total_fields old⟩

/-- `value is None or not isinstance(value, (dict, list))` → count 1, else
`count_total_fields(value)` (source lines 282-290). -/
def scalarOrCount (v : JVal) : Nat :=
  match v with
  | .arr _ => count_total_fields v
  | .obj _ => count_total_fields v
  | _ => 1

mutual

/-- The `traverse` of `count_changes` (source lines 244-302), walking a
compact diff. -/
def ccTraverse : JVal → Changes
  | .arr items => ccItems items
  | .obj kvs =>
    if (lookupKV kvs "__old").isSome ∧ (lookupKV kvs "__new").isSome then
      modBoxCount ((lookupKV kvs "__old").getD .null) ((lookupKV kvs "__new").getD .null)
    else ccFields kvs
  | _ => ⟨0, 0, 0⟩

def ccItems : List JVal → Changes
  | [] => ⟨0, 0, 0⟩
  | item :: rest => ccEntry item + ccItems rest

/-- One list entry (source lines 249-266): only 2-element `[op, element]`
lists count. -/
def ccEntry : JVal → Changes
  | .arr ops => ccEntryPair ops
  | _ => ⟨0, 0, 0⟩

def ccEntryPair : List JVal → Changes
  | [op, element] =>
    match element with
    | .obj kvs =>
      if op = .str "+" then ⟨count_total_fields (.obj kvs), 0, 0⟩
      else if op = .str "-" then ⟨0, count_total_fields (.obj kvs), 0⟩
      else if op = .str "~" then ccTraverse element
      else ⟨0, 0, 0⟩
    | _ =>
      if op = .str "+" then ⟨1, 0, 0⟩
      else if op = .str "-" then ⟨0, 1, 0⟩
      else if op = .str "~" then ⟨0, 0, 1⟩
      else ⟨0, 0, 0⟩
  | _ => ⟨0, 0, 0⟩

/-- Dict fields of a compact diff (source lines 280-302). -/
def ccFields : List (String × JVal) → Changes
  | [] => ⟨0, 0, 0⟩
  | (k, v) :: rest =>
    (if strEndsWith k "__deleted" then ⟨0, scalarOrCount v, 0⟩
     else if strEndsWith k "__added" then ⟨scalarOrCount v, 0, 0⟩
     else ccValue v) + ccFields rest

/-- A dict value under an ordinary key (source lines 291-302): a
modification box counts by `modBoxCount`, other dicts and lists are
traversed, scalars are ignored. -/
def ccValue : JVal → Changes
  | .obj kvs =>
    if (lookupKV kvs "__old").isSome ∧ (lookupKV kvs "__new").isSome then
      modBoxCount ((lookupKV kvs "__old").getD .null) ((lookupKV kvs "__new").getD .null)
    else ccFields kvs
  | .arr xs => ccItems xs
  | _ => ⟨0, 0, 0⟩

end

/-- The `jsonDiffStats` record returned by `calculate_json_accuracy`. -/
structure Stats where
  additions : Nat
  deletions : Nat
  modifications : Nat
  total : Nat
deriving DecidableEq

/-- `count_changes` (source lines 241-308). -/
def count_changes (diff : JVal) : Stats :=
  let c := ccTraverse diff
  ⟨c.additions, c.deletions, c.modifications,
    c.additions + c.deletions + c.modifications⟩

mutual

/-- `convert_strings_to_uppercase` (source lines 62-79). -/
def convert_strings_to_uppercase : JVal → JVal
  | .str s => .str (strUpper s)
  | .arr xs => .arr (upperItems xs)
  | .obj kvs => .obj (upperFields kvs)
  | v => v

def upperItems : List JVal → List JVal
  | [] => []
  | x :: xs => convert_strings_to_uppercase x :: upperItems xs

/-- Dict values (source lines 72-78): strings are uppercased, containers
are recursed into, other scalars pass through. -/
def upperFields : List (String × JVal) → List (String × JVal)
  | [] => []
  | (k, v) :: rest =>
    (k, match v with
        | .str s => .str (strUpper s)
        | .arr xs => .arr (upperItems xs)
        | .obj kvs => .obj (upperFields kvs)
        | w => w) :: upperFields rest

end

/-- `sorted(set(a.keys()) | set(b.keys()))` (source lines 110-111). -/
def sortedKeyUnion (avs bvs : List (String × JVal)) : List String :=
  List.insertionSort strLe ((keysOf avs ++ keysOf bvs).dedup)

/-- A modification node: compact `{"__old": o, "__new": n}`, full adds
`"__op": "~"` (source lines 103-105, 144-147, 187-189, 236-238). -/
def mkModBox (full : Bool) (o n : JVal) : JVal :=
  if full then .obj [("__op", .str "~"), ("__old", o), ("__new", n)]
  else .obj [("__old", o), ("__new", n)]

/-- Dict deletion entry (source lines 114-118). -/
def delFieldEntry (full : Bool) (k : String) (v : JVal) : String × JVal :=
  if full then (k, .obj [("__op", .str "-"), ("__old", v)]) else (k ++ "__deleted", v)

/-- Dict addition entry (source lines 119-123). -/
def addFieldEntry (full : Bool) (k : String) (v : JVal) : String × JVal :=
  if full then (k, .obj [("__op", .str "+"), ("__new", v)]) else (k ++ "__added", v)

/-- Dict nested-diff entry (source lines 127-140). -/
def nestFieldEntry (full : Bool) (k : String) (child : JVal) : String × JVal :=
  if full then (k, .obj [("__op", .str "~"), ("diff", child)]) else (k, child)

/-- List deletion entry (source lines 199-203). -/
def delItemEntry (full : Bool) (v : JVal) : JVal :=
  if full then .obj [("op", .str "-"), ("value", v)] else .arr [.str "-", v]

/-- List addition entry (source lines 204-208). -/
def addItemEntry (full : Bool) (v : JVal) : JVal :=
  if full then .obj [("op", .str "+"), ("value", v)] else .arr [.str "+", v]

/-- List nested-diff entry (source lines 212-225). -/
def nestItemEntry (full : Bool) (child : JVal) : JVal :=
  if full then .obj [("op", .str "~"), ("diff", child)] else .arr [.str "~", child]

/-- List modification entry (source lines 228-232). -/
def modItemEntry (full : Bool) (o n : JVal) : JVal :=
  if full then .obj [("op", .str "~"), ("value", .obj [("__old", o), ("__new", n)])]
  else .arr [.str "~", .obj [("__old", o), ("__new", n)]]

/-- `isinstance(va, dict) and isinstance(vb, dict)` or likewise for lists;
the two branches of the source have identical bodies (lines 127-140 and
212-225), so they are merged here. -/
def bothSameContainer (x y : JVal) : Bool :=
  (x.isDict && y.isDict) || (x.isList && y.isList)

/-- The per-key loop of the dict branch of `_diff_json` (source lines
111-148), parameterized by the recursive call `d`. -/
def diffObjGo (d : JVal → JVal → JVal) (avs bvs : List (String × JVal)) (full : Bool) :
    List String → List (String × JVal)
  | [] => []
  | k :: ks =>
    let rest := diffObjGo d avs bvs full ks
    match lookupKV avs k, lookupKV bvs k with
    | some va, none => delFieldEntry full k va :: rest
    | none, some vb => addFieldEntry full k vb :: rest
    | some va, some vb =>
      if bothSameContainer va vb then
        let child := d va vb
        if truthy child then nestFieldEntry full k child :: rest else rest
      else if pyEq va vb then rest
      else (k, mkModBox full va vb) :: rest
    | none, none => rest

/-- The inner scan of the greedy multiset match (source lines 161-170):
find the first pool element satisfying `p` and remove it. -/
def removeFirstMatchBy (p : JVal → Bool) : List JVal → Option (List JVal)
  | [] => none
  | vb :: rest => if p vb then some rest else (removeFirstMatchBy p rest).map (vb :: ·)

/-- The greedy multiset match over lists of dicts (source lines 158-171):
each element of the first list consumes the first not-yet-consumed element
of the pool related to it by `p`; returns the `matched` flag and the
remaining pool. -/
def greedyMatchBy (p : JVal → JVal → Bool) : List JVal → List JVal → Bool × List JVal
  | [], pool => (true, pool)
  | va :: rest, pool =>
    match removeFirstMatchBy (p va) pool with
    | none => (false, pool)
    | some pool' => greedyMatchBy p rest pool'

/-- The index-wise list comparison of `_diff_json` (source lines 192-233),
parameterized by the recursive call `d`.  The source iterates
`i in range(max(la, lb))` with presence flags; this simultaneous recursion
produces the identical entry list. -/
def diffIdxGo (d : JVal → JVal → JVal) (full : Bool) : List JVal → List JVal → List JVal
  | [], ys => ys.map (addItemEntry full)
  | x :: xs, [] => delItemEntry full x :: diffIdxGo d full xs []
  | x :: xs, y :: ys =>
    let rest := diffIdxGo d full xs ys
    if bothSameContainer x y then
      let child := d x y
      if truthy child then nestItemEntry full child :: rest else rest
    else if pyEq x y then rest
    else modItemEntry full x y :: rest

/-- The dict-vs-dict branch of `_diff_json` (source lines 108-148), with
`d` standing for the recursive call. -/
def diffObjStep (d : JVal → JVal → Bool → JVal) (avs bvs : List (String × JVal))
    (full : Bool) : JVal :=
  .obj (diffObjGo (fun x y => d x y full) avs bvs full (sortedKeyUnion avs bvs))

/-- The list-vs-list branch of `_diff_json` (source lines 151-233), with
`d` standing for the recursive call. -/
def diffArrStep (d : JVal → JVal → Bool → JVal) (as bs : List JVal)
    (full : Bool) : JVal :=
  let ad := allDicts as && allDicts bs
  let idx : JVal := .arr (diffIdxGo (fun x y => d x y full) full as bs)
  let fallback : JVal :=
    if !ad then
      if pyEq (.arr as) (.arr bs) then .arr []
      else if as.length ≠ bs.length then idx
      else mkModBox full (.arr as) (.arr bs)
    else idx
  if as.length == bs.length && ad then
    let gm := greedyMatchBy (fun x y => decide (d x y false = JVal.obj [])) as bs
    if gm.1 && gm.2.isEmpty then .arr [] else fallback
  else fallback

/-- The body of `_diff_json` (source lines 96-238), with `d` standing for
the recursive call.  `diffF`/`diffJson` below tie the recursion. -/
def diffStep (d : JVal → JVal → Bool → JVal) (a b : JVal) (full : Bool) : JVal :=
  if a = .null ∧ b = .null then .obj []
  else if !(a.isDict || a.isList) && !(b.isDict || b.isList) then
    if pyEq a b then .obj [] else mkModBox full a b
  else
    match a, b with
    | .obj avs, .obj bvs => diffObjStep d avs bvs full
    | .arr as, .arr bs => diffArrStep d as bs full
    | _, _ => mkModBox full a b

/-- `_diff_json` (source lines 82-238), structurally recursive on a fuel
that bounds the `sizeV` of the first argument (every recursive call of the
source descends into a strict subvalue of `a`); `diffJson` below supplies
the fuel.  `diffF 0` is never reached when the fuel suffices
(`diffF_irrel`). -/
def diffF : Nat → JVal → JVal → Bool → JVal
  | 0, _, _, _ => .obj []
  | fuel + 1, a, b, full => diffStep (diffF fuel) a b full

/-- `_diff_json(a, b, full)`. -/
def diffJson (a b : JVal) (full : Bool) : JVal := diffF (sizeV a) a b full

/-- Round a rational to the nearest integer, ties to even: Python's
`round` (on the exact value; the source applies it to a float). -/
def roundQ (q : ℚ) : ℤ :=
  let fl := q.num.fdiv (q.den : ℤ)
  let r := q.num - fl * q.den
  if 2 * r < (q.den : ℤ) then fl
  else if (q.den : ℤ) < 2 * r then fl + 1
  else if fl % 2 = 0 then fl else fl + 1

/-- Python's `round(q, 4)`. -/
def round4 (q : ℚ) : ℚ := (roundQ (q * 10000) : ℚ) / 10000

/-- The result record of `calculate_json_accuracy` (source lines 9-16). -/
structure AccuracyResult where
  score : ℚ
  jsonDiff : JVal
  fullJsonDiff : JVal
  jsonDiffStats : Stats
  totalFields : Nat
deriving DecidableEq

/-- The preprocessing of `calculate_json_accuracy` (source lines 18-21):
uppercase all string leaves when `ignore_cases` is set. -/
def processVal (ignore_cases : Bool) (v : JVal) : JVal :=
  if ignore_cases then convert_strings_to_uppercase v else v

/-- `calculate_json_accuracy` (source lines 4-59). -/
def calculate_json_accuracy (actual predicted : JVal) (ignore_cases : Bool) :
    AccuracyResult :=
  let processed_actual := processVal ignore_cases actual
  let processed_predicted := processVal ignore_cases predicted
  let full_diff := diffJson processed_actual processed_predicted true
  let diff_result := diffJson processed_actual processed_predicted false
  let total_fields := count_total_fields processed_actual
  if ¬ truthy diff_result then
    { score := 1, jsonDiff := .obj [], fullJsonDiff := .obj [],
      jsonDiffStats := ⟨0, 0, 0, 0⟩, totalFields := total_fields }
  else
    let changes := count_changes diff_result
    let score : ℚ :=
      if total_fields = 0 then (if changes.total > 0 then 0 else 1)
      else
        max 0 (1 - ((changes.additions : ℚ) + changes.deletions + changes.modifications)
          / total_fields)
    { score := round4 score, jsonDiff := diff_result, fullJsonDiff := full_diff,
      jsonDiffStats := changes, totalFields := total_fields }

/-! ## Size lemmas -/

theorem sizeV_pos (v : JVal) : 1 ≤ sizeV v := by
  cases v <;> simp [sizeV]

theorem sizeV_lt_sizeVs_of_mem {x : JVal} {xs : List JVal} (h : x ∈ xs) :
    sizeV x < sizeVs xs := by
  induction xs with
  | nil => cases h
  | cons y ys ih =>
    rcases List.mem_cons.mp h with rfl | h'
    · simp [sizeVs]; omega
    · have := ih h'
      simp [sizeVs]; omega

theorem sizeV_lookup_lt {kvs : List (String × JVal)} {k : String} {v : JVal}
    (h : lookupKV kvs k = some v) : sizeV v < sizeKVs kvs := by
  induction kvs with
  | nil => simp [lookupKV] at h
  | cons kv rest ih =>
    obtain ⟨k', v'⟩ := kv
    by_cases hk : k' = k
    · subst hk
      simp [lookupKV] at h
      subst h
      simp [sizeKVs]; omega
    · simp only [lookupKV, if_neg hk] at h
      have := ih h
      simp [sizeKVs]; omega

theorem sizeV_child_arr {x : JVal} {xs : List JVal} (h : x ∈ xs) :
    sizeV x < sizeV (.arr xs) := by
  have := sizeV_lt_sizeVs_of_mem h
  simp [sizeV]; omega

theorem sizeV_child_obj {kvs : List (String × JVal)} {k : String} {v : JVal}
    (h : lookupKV kvs k = some v) : sizeV v < sizeV (.obj kvs) := by
  have := sizeV_lookup_lt h
  simp [sizeV]; omega

/-! ## Fuel irrelevance: `diffJson` satisfies the recursion equation of
`_diff_json` -/

theorem diffObjGo_congr {d1 d2 : JVal → JVal → JVal}
    {avs bvs : List (String × JVal)} {full : Bool}
    (h : ∀ k v, lookupKV avs k = some v → ∀ w, d1 v w = d2 v w) :
    ∀ ks, diffObjGo d1 avs bvs full ks = diffObjGo d2 avs bvs full ks := by
  intro ks
  induction ks with
  | nil => rfl
  | cons k ks ih =>
    simp only [diffObjGo, ih]
    cases hva : lookupKV avs k <;> cases hvb : lookupKV bvs k <;> simp
    rw [h k _ hva]

theorem greedyMatchBy_congr {p1 p2 : JVal → JVal → Bool}
    (h : ∀ x ∈ as, ∀ y, p1 x y = p2 x y) :
    ∀ pool, greedyMatchBy p1 as pool = greedyMatchBy p2 as pool := by
  induction as with
  | nil => intro pool; rfl
  | cons va rest ih =>
    intro pool
    have hp : p1 va = p2 va := funext (h va (List.mem_cons_self va rest))
    simp only [greedyMatchBy, hp]
    cases removeFirstMatchBy (p2 va) pool with
    | none => rfl
    | some pool' => exact ih (fun x hx y => h x (List.mem_cons_of_mem _ hx) y) pool'

theorem diffIdxGo_congr {d1 d2 : JVal → JVal → JVal} {full : Bool}
    (h : ∀ x ∈ as, ∀ y, d1 x y = d2 x y) :
    ∀ bs, diffIdxGo d1 full as bs = diffIdxGo d2 full as bs := by
  induction as with
  | nil => intro bs; rfl
  | cons x xs ih =>
    intro bs
    have hx : ∀ y, d1 x y = d2 x y := h x (List.mem_cons_self x xs)
    have hrest : ∀ z ∈ xs, ∀ y, d1 z y = d2 z y :=
      fun z hz y => h z (List.mem_cons_of_mem _ hz) y
    cases bs with
    | nil => simp only [diffIdxGo, ih hrest]
    | cons y ys => simp only [diffIdxGo, ih hrest, hx]

theorem diffStep_congr {d1 d2 : JVal → JVal → Bool → JVal} {a b : JVal} {full : Bool}
    (h : ∀ x y m, sizeV x < sizeV a → d1 x y m = d2 x y m) :
    diffStep d1 a b full = diffStep d2 a b full := by
  unfold diffStep
  cases a with
  | obj avs =>
    cases b with
    | obj bvs =>
      dsimp only [diffObjStep]
      rw [diffObjGo_congr (fun k v hv w => h v w full (sizeV_child_obj hv))]
    | null => rfl
    | bool x => rfl
    | num n => rfl
    | str s => rfl
    | arr bs => rfl
  | arr as =>
    cases b with
    | arr bs =>
      dsimp only [diffArrStep]
      rw [diffIdxGo_congr (fun x hx y => h x y full (sizeV_child_arr hx)),
        greedyMatchBy_congr (fun x hx y => by rw [h x y false (sizeV_child_arr hx)])]
    | null => rfl
    | bool x => rfl
    | num n => rfl
    | str s => rfl
    | obj bvs => rfl
  | null => rfl
  | bool v => rfl
  | num n => rfl
  | str s => rfl

theorem diffF_irrel :
    ∀ f g a b full, sizeV a ≤ f → sizeV a ≤ g → diffF f a b full = diffF g a b full := by
  intro f
  induction f with
  | zero => intro g a b full hf; have := sizeV_pos a; omega
  | succ f ih =>
    intro g a b full hf hg
    have := sizeV_pos a
    cases g with
    | zero => omega
    | succ g =>
      simp only [diffF]
      exact diffStep_congr (fun x y m hx => ih g x y m (by omega) (by omega))

/-- The recursion equation of `_diff_json`: `diffJson` is the fixpoint of
`diffStep`. -/
theorem diffJson_eq (a b : JVal) (full : Bool) :
    diffJson a b full = diffStep diffJson a b full := by
  unfold diffJson
  obtain ⟨n, hn⟩ : ∃ n, sizeV a = n + 1 := by
    have := sizeV_pos a; exact ⟨sizeV a - 1, by omega⟩
  rw [hn]
  simp only [diffF]
  exact diffStep_congr (fun x y m hx => diffF_irrel n (sizeV x) x y m (by omega) le_rfl)

/-! ## Branch equations for `diffJson` -/

theorem diffJson_null_null (full : Bool) : diffJson .null .null full = .obj [] := by
  rw [diffJson_eq]; rfl

theorem diffJson_obj_obj (avs bvs : List (String × JVal)) (full : Bool) :
    diffJson (.obj avs) (.obj bvs) full = diffObjStep diffJson avs bvs full := by
  rw [diffJson_eq]; rfl

theorem diffJson_arr_arr (as bs : List JVal) (full : Bool) :
    diffJson (.arr as) (.arr bs) full = diffArrStep diffJson as bs full := by
  rw [diffJson_eq]; rfl

/-! ## Lookup, keys and well-formedness lemmas -/

theorem lookupKV_mem {kvs : List (String × JVal)} {k : String} {v : JVal}
    (h : lookupKV kvs k = some v) : (k, v) ∈ kvs := by
  induction kvs with
  | nil => simp [lookupKV] at h
  | cons kv rest ih =>
    obtain ⟨k', v'⟩ := kv
    by_cases hk : k' = k
    · subst hk
      simp [lookupKV] at h
      simp [h]
    · simp only [lookupKV, if_neg hk] at h
      exact List.mem_cons_of_mem _ (ih h)

theorem lookupKV_isSome_iff {kvs : List (String × JVal)} {k : String} :
    (lookupKV kvs k).isSome = true ↔ k ∈ keysOf kvs := by
  induction kvs with
  | nil => simp [lookupKV, keysOf]
  | cons kv rest ih =>
    obtain ⟨k', v'⟩ := kv
    by_cases hk : k' = k
    · subst hk; simp [lookupKV, keysOf]
    · simp [lookupKV, hk, keysOf, Ne.symm hk] at ih ⊢
      exact ih

theorem nodupKeys_iff {kvs : List (String × JVal)} :
    nodupKeys kvs = true ↔ (keysOf kvs).Nodup := by
  induction kvs with
  | nil => simp [nodupKeys, keysOf]
  | cons kv rest ih =>
    obtain ⟨k, v⟩ := kv
    simp only [nodupKeys, keysOf, List.map_cons, List.nodup_cons, Bool.and_eq_true,
      Bool.not_eq_true']
    rw [show (List.map Prod.fst rest).Nodup = (keysOf rest).Nodup from rfl, ← ih]
    constructor
    · rintro ⟨h1, h2⟩
      refine ⟨fun hk => ?_, h2⟩
      rw [List.mem_map] at hk
      obtain ⟨p, hp, hpk⟩ := hk
      have : rest.any (fun p => p.1 == k) = true :=
        List.any_eq_true.mpr ⟨p, hp, by simp [hpk]⟩
      simp [this] at h1
    · rintro ⟨h1, h2⟩
      refine ⟨?_, h2⟩
      rw [Bool.eq_false_iff]
      intro hc
      obtain ⟨p, hp, hpk⟩ := List.any_eq_true.mp hc
      exact h1 (List.mem_map.mpr ⟨p, hp, by simpa using hpk⟩)

theorem lookupKV_eq_of_mem {kvs : List (String × JVal)} {k : String} {v : JVal}
    (hnd : nodupKeys kvs = true) (h : (k, v) ∈ kvs) : lookupKV kvs k = some v := by
  induction kvs with
  | nil => cases h
  | cons kv rest ih =>
    obtain ⟨k', v'⟩ := kv
    simp only [nodupKeys, Bool.and_eq_true, Bool.not_eq_true'] at hnd
    rcases List.mem_cons.mp h with heq | hmem
    · obtain ⟨rfl, rfl⟩ := Prod.mk.inj heq.symm
      simp [lookupKV]
    · by_cases hk : k' = k
      · subst hk
        have : rest.any (fun p => p.1 == k') = true :=
          List.any_eq_true.mpr ⟨(k', v), hmem, by simp⟩
        simp [this] at hnd
      · simp only [lookupKV, if_neg hk]
        exact ih hnd.2 hmem

theorem wfItems_iff {xs : List JVal} :
    wfItems xs = true ↔ ∀ x ∈ xs, wfV x = true := by
  induction xs with
  | nil => simp [wfItems]
  | cons x xs ih => simp [wfItems, ih]

theorem wfFields_iff {kvs : List (String × JVal)} :
    wfFields kvs = true ↔ ∀ kv ∈ kvs, wfV kv.2 = true := by
  induction kvs with
  | nil => simp [wfFields]
  | cons kv rest ih =>
    obtain ⟨k, v⟩ := kv
    simp [wfFields, ih]

theorem wfV_mem {xs : List JVal} {x : JVal} (h : wfV (.arr xs) = true) (hx : x ∈ xs) :
    wfV x = true := by
  rw [wfV, wfItems_iff] at h
  exact h x hx

theorem wfV_obj_nodup {kvs : List (String × JVal)} (h : wfV (.obj kvs) = true) :
    nodupKeys kvs = true := by
  rw [wfV, Bool.and_eq_true] at h
  exact h.1

theorem wfV_lookup {kvs : List (String × JVal)} {k : String} {v : JVal}
    (h : wfV (.obj kvs) = true) (hv : lookupKV kvs k = some v) : wfV v = true := by
  rw [wfV, Bool.and_eq_true, wfFields_iff] at h
  exact h.2 _ (lookupKV_mem hv)

/-! ## `pyEq` lemmas -/

theorem pyEqList_iff {xs ys : List JVal} :
    pyEqList xs ys = true ↔ List.Forall₂ (fun x y => pyEq x y = true) xs ys := by
  induction xs generalizing ys with
  | nil => cases ys <;> simp [pyEqList]
  | cons x xs ih =>
    cases ys with
    | nil => simp [pyEqList]
    | cons y ys => simp [pyEqList, ih]

theorem pyEqFields_iff {avs bvs : List (String × JVal)} :
    pyEqFields avs bvs = true ↔
      ∀ p ∈ avs, ∃ w, lookupKV bvs p.1 = some w ∧ pyEq p.2 w = true := by
  induction avs with
  | nil => simp [pyEqFields]
  | cons kv rest ih =>
    obtain ⟨k, v⟩ := kv
    simp only [pyEqFields, Bool.and_eq_true, ih, List.mem_cons]
    constructor
    · rintro ⟨h1, h2⟩ p hp
      rcases hp with rfl | hp
      · cases hw : lookupKV bvs k with
        | none => simp [hw] at h1
        | some w => exact ⟨w, rfl, by simpa [hw] using h1⟩
      · exact h2 p hp
    · rintro h
      refine ⟨?_, fun p hp => h p (Or.inr hp)⟩
      obtain ⟨w, hw, hvw⟩ := h (k, v) (Or.inl rfl)
      simp only at hw hvw
      simp [hw, hvw]

theorem pyEq_obj_iff {avs bvs : List (String × JVal)} :
    pyEq (.obj avs) (.obj bvs) = true ↔
      avs.length = bvs.length ∧
        ∀ p ∈ avs, ∃ w, lookupKV bvs p.1 = some w ∧ pyEq p.2 w = true := by
  simp [pyEq, pyEqFields_iff]

theorem pyEq_isDict {x y : JVal} (h : pyEq x y = true) : x.isDict = y.isDict := by
  cases x <;> cases y <;> simp_all [pyEq, JVal.isDict]

theorem pyEq_isList {x y : JVal} (h : pyEq x y = true) : x.isList = y.isList := by
  cases x <;> cases y <;> simp_all [pyEq, JVal.isList]

theorem pyEq_arr_length {xs ys : List JVal} (h : pyEq (.arr xs) (.arr ys) = true) :
    xs.length = ys.length := by
  rw [pyEq, pyEqList_iff] at h
  exact h.length_eq

theorem pyEq_refl : ∀ x, wfV x = true → pyEq x x = true := by
  suffices h : ∀ n x, sizeV x ≤ n → wfV x = true → pyEq x x = true from
    fun x hx => h (sizeV x) x le_rfl hx
  intro n
  induction n with
  | zero => intro x hx; have := sizeV_pos x; omega
  | succ n ih =>
    intro x hx hwf
    match x with
    | .null => rfl
    | .bool b => simp [pyEq]
    | .num m => simp [pyEq]
    | .str s => simp [pyEq]
    | .arr xs =>
      rw [pyEq, pyEqList_iff]
      refine List.forall₂_same.mpr fun v hv => ?_
      have hs := sizeV_child_arr hv
      exact ih v (by omega) (wfV_mem hwf hv)
    | .obj kvs =>
      rw [pyEq_obj_iff]
      refine ⟨rfl, fun p hp => ?_⟩
      have hl : lookupKV kvs p.1 = some p.2 :=
        lookupKV_eq_of_mem (wfV_obj_nodup hwf) hp
      have hs := sizeV_child_obj hl
      refine ⟨p.2, hl, ih p.2 (by omega) ?_⟩
      rw [wfV, Bool.and_eq_true, wfFields_iff] at hwf
      exact hwf.2 _ hp

theorem pyEq_symm_aux :
    ∀ n x y, sizeV x + sizeV y ≤ n → wfV x = true → wfV y = true →
      pyEq x y = true → pyEq y x = true := by
  intro n
  induction n with
  | zero => intro x y hs; have := sizeV_pos x; have := sizeV_pos y; omega
  | succ n ih =>
    intro x y hs hwx hwy h
    match x, y with
    | .null, .null => rfl
    | .bool a, .bool b => simp_all [pyEq]
    | .bool a, .num m => simp_all [pyEq]
    | .num m, .bool a => simp_all [pyEq]
    | .num m, .num k => simp_all [pyEq]
    | .str s, .str t => simp_all [pyEq]
    | .arr xs, .arr ys =>
      rw [pyEq, pyEqList_iff] at h ⊢
      rw [List.forall₂_iff_get] at h ⊢
      obtain ⟨hlen, hget⟩ := h
      refine ⟨hlen.symm, fun i h1 h2 => ?_⟩
      have hmy : ys.get ⟨i, h1⟩ ∈ ys := List.get_mem ys i h1
      have hmx : xs.get ⟨i, h2⟩ ∈ xs := List.get_mem xs i h2
      have hsy := sizeV_child_arr hmy
      have hsx := sizeV_child_arr hmx
      exact ih _ _ (by omega) (wfV_mem hwx hmx) (wfV_mem hwy hmy) (hget i h2 h1)
    | .obj avs, .obj bvs =>
      rw [pyEq_obj_iff] at h
      obtain ⟨hlen, hfields⟩ := h
      rw [pyEq_obj_iff]
      refine ⟨hlen.symm, fun p hp => ?_⟩
      -- the key sets coincide: `keysOf avs ⊆ keysOf bvs` plus equal lengths
      have hsub : keysOf avs ⊆ keysOf bvs := by
        intro k hk
        rw [← lookupKV_isSome_iff] at hk ⊢
        obtain ⟨v, hv⟩ := Option.isSome_iff_exists.mp hk
        obtain ⟨w, hw, _⟩ := hfields (k, v) (lookupKV_mem hv)
        simp [hw]
      have hperm : List.Perm (keysOf avs) (keysOf bvs) := by
        refine (List.subperm_of_subset ?_ hsub).perm_of_length_le ?_
        · exact nodupKeys_iff.mp (wfV_obj_nodup hwx)
        · simp [keysOf, hlen]
      obtain ⟨k, w⟩ := p
      have hkmem : k ∈ keysOf avs := hperm.mem_iff.mpr (List.mem_map.mpr ⟨_, hp, rfl⟩)
      obtain ⟨v, hv⟩ := Option.isSome_iff_exists.mp (lookupKV_isSome_iff.mpr hkmem)
      obtain ⟨w', hw', hvw'⟩ := hfields (k, v) (lookupKV_mem hv)
      have hw : lookupKV bvs k = some w := lookupKV_eq_of_mem (wfV_obj_nodup hwy) hp
      rw [hw] at hw'
      obtain rfl := Option.some.inj hw'
      have hsv := sizeV_child_obj hv
      have hsw := sizeV_child_obj hw
      exact ⟨v, hv, ih v w (by omega) (wfV_lookup hwx hv) (wfV_lookup hwy hw) hvw'⟩
    | .null, .bool _ => cases h
    | .null, .num _ => cases h
    | .null, .str _ => cases h
    | .null, .arr _ => cases h
    | .null, .obj _ => cases h
    | .bool _, .null => cases h
    | .bool _, .str _ => cases h
    | .bool _, .arr _ => cases h
    | .bool _, .obj _ => cases h
    | .num _, .null => cases h
    | .num _, .str _ => cases h
    | .num _, .arr _ => cases h
    | .num _, .obj _ => cases h
    | .str _, .null => cases h
    | .str _, .bool _ => cases h
    | .str _, .num _ => cases h
    | .str _, .arr _ => cases h
    | .str _, .obj _ => cases h
    | .arr _, .null => cases h
    | .arr _, .bool _ => cases h
    | .arr _, .num _ => cases h
    | .arr _, .str _ => cases h
    | .arr _, .obj _ => cases h
    | .obj _, .null => cases h
    | .obj _, .bool _ => cases h
    | .obj _, .num _ => cases h
    | .obj _, .str _ => cases h
    | .obj _, .arr _ => cases h

theorem pyEq_symm {x y : JVal} (hwx : wfV x = true) (hwy : wfV y = true) :
    pyEq x y = pyEq y x := by
  rw [Bool.eq_iff_iff]
  constructor
  · exact pyEq_symm_aux (sizeV x + sizeV y) x y le_rfl hwx hwy
  · exact pyEq_symm_aux (sizeV y + sizeV x) y x le_rfl hwy hwx

theorem pyEq_trans_aux :
    ∀ n x y z, sizeV x + sizeV y + sizeV z ≤ n → wfV x = true → wfV y = true →
      wfV z = true → pyEq x y = true → pyEq y z = true → pyEq x z = true := by
  intro n
  induction n with
  | zero => intro x y z hs; have := sizeV_pos x; have := sizeV_pos y; have := sizeV_pos z; omega
  | succ n ih =>
    intro x y z hs hwx hwy hwz hxy hyz
    match x, y, z with
    | .arr xs, .arr ys, .arr zs =>
      rw [pyEq, pyEqList_iff, List.forall₂_iff_get] at hxy hyz ⊢
      obtain ⟨hl1, hg1⟩ := hxy
      obtain ⟨hl2, hg2⟩ := hyz
      refine ⟨hl1.trans hl2, fun i h1 h2 => ?_⟩
      have hiy : i < ys.length := hl1 ▸ h1
      have hmx := List.get_mem xs i h1
      have hmy := List.get_mem ys i hiy
      have hmz := List.get_mem zs i h2
      have hsx := sizeV_child_arr hmx
      have hsy := sizeV_child_arr hmy
      have hsz := sizeV_child_arr hmz
      exact ih _ _ _ (by omega) (wfV_mem hwx hmx) (wfV_mem hwy hmy) (wfV_mem hwz hmz)
        (hg1 i h1 hiy) (hg2 i hiy h2)
    | .obj avs, .obj bvs, .obj cvs =>
      rw [pyEq_obj_iff] at hxy hyz ⊢
      obtain ⟨hl1, hf1⟩ := hxy
      obtain ⟨hl2, hf2⟩ := hyz
      refine ⟨hl1.trans hl2, fun p hp => ?_⟩
      obtain ⟨k, v⟩ := p
      obtain ⟨w, hw, hvw⟩ := hf1 (k, v) hp
      obtain ⟨u, hu, hwu⟩ := hf2 (k, w) (lookupKV_mem hw)
      have hsv := sizeV_child_obj (lookupKV_eq_of_mem (wfV_obj_nodup hwx) hp)
      have hsw := sizeV_child_obj hw
      have hsu := sizeV_child_obj hu
      exact ⟨u, hu, ih v w u (by omega) (by rw [wfV, Bool.and_eq_true, wfFields_iff] at hwx; exact hwx.2 _ hp)
        (wfV_lookup hwy hw) (wfV_lookup hwz hu) hvw hwu⟩
    | .null, .null, .null => rfl
    | .bool a, .bool b, .bool c => simp_all [pyEq]
    | .bool a, .bool b, .num m => simp_all [pyEq]
    | .bool a, .num m, .bool c =>
      simp only [pyEq, beq_iff_eq] at hxy hyz ⊢
      cases a <;> cases c <;> simp_all
    | .bool a, .num m, .num k => simp_all [pyEq]
    | .num m, .bool b, .bool c => simp_all [pyEq]
    | .num m, .bool b, .num k =>
      simp only [pyEq, beq_iff_eq] at hxy hyz ⊢
      omega
    | .num m, .num k, .bool c => simp_all [pyEq]
    | .num m, .num k, .num l => simp_all [pyEq]
    | .str s, .str t, .str u => simp_all [pyEq]
    | .null, .null, .bool _ | .null, .null, .num _ | .null, .null, .str _
    | .null, .null, .arr _ | .null, .null, .obj _ => cases hyz
    | .bool _, .bool _, .null | .bool _, .bool _, .str _ | .bool _, .bool _, .arr _
    | .bool _, .bool _, .obj _ => cases hyz
    | .bool _, .num _, .null | .bool _, .num _, .str _ | .bool _, .num _, .arr _
    | .bool _, .num _, .obj _ => cases hyz
    | .num _, .bool _, .null | .num _, .bool _, .str _ | .num _, .bool _, .arr _
    | .num _, .bool _, .obj _ => cases hyz
    | .num _, .num _, .null | .num _, .num _, .str _ | .num _, .num _, .arr _
    | .num _, .num _, .obj _ => cases hyz
    | .str _, .str _, .null | .str _, .str _, .bool _ | .str _, .str _, .num _
    | .str _, .str _, .arr _ | .str _, .str _, .obj _ => cases hyz
    | .arr _, .arr _, .null | .arr _, .arr _, .bool _ | .arr _, .arr _, .num _
    | .arr _, .arr _, .str _ | .arr _, .arr _, .obj _ => cases hyz
    | .obj _, .obj _, .null | .obj _, .obj _, .bool _ | .obj _, .obj _, .num _
    | .obj _, .obj _, .str _ | .obj _, .obj _, .arr _ => cases hyz
    | .null, .bool _, _ | .null, .num _, _ | .null, .str _, _ | .null, .arr _, _
    | .null, .obj _, _ => cases hxy
    | .bool _, .null, _ | .bool _, .str _, _ | .bool _, .arr _, _
    | .bool _, .obj _, _ => cases hxy
    | .num _, .null, _ | .num _, .str _, _ | .num _, .arr _, _
    | .num _, .obj _, _ => cases hxy
    | .str _, .null, _ | .str _, .bool _, _ | .str _, .num _, _ | .str _, .arr _, _
    | .str _, .obj _, _ => cases hxy
    | .arr _, .null, _ | .arr _, .bool _, _ | .arr _, .num _, _ | .arr _, .str _, _
    | .arr _, .obj _, _ => cases hxy
    | .obj _, .null, _ | .obj _, .bool _, _ | .obj _, .num _, _ | .obj _, .str _, _
    | .obj _, .arr _, _ => cases hxy

theorem pyEq_trans {x y z : JVal} (hwx : wfV x = true) (hwy : wfV y = true)
    (hwz : wfV z = true) (hxy : pyEq x y = true) (hyz : pyEq y z = true) :
    pyEq x z = true :=
  pyEq_trans_aux (sizeV x + sizeV y + sizeV z) x y z le_rfl hwx hwy hwz hxy hyz

/-! ## The diff of a value with itself is empty -/

theorem greedyMatchBy_self {p : JVal → JVal → Bool} :
    ∀ l : List JVal, (∀ x ∈ l, p x x = true) → greedyMatchBy p l l = (true, []) := by
  intro l
  induction l with
  | nil => intro _; rfl
  | cons a t ih =>
    intro h
    have ha : p a a = true := h a (List.mem_cons_self a t)
    simp only [greedyMatchBy, removeFirstMatchBy, ha, if_pos]
    exact ih (fun x hx => h x (List.mem_cons_of_mem _ hx))

theorem diffObjGo_self {d : JVal → JVal → JVal} {avs : List (String × JVal)} {full : Bool}
    (h1 : ∀ k v, lookupKV avs k = some v → truthy (d v v) = false)
    (h2 : ∀ k v, lookupKV avs k = some v → pyEq v v = true) :
    ∀ ks, diffObjGo d avs avs full ks = [] := by
  intro ks
  induction ks with
  | nil => rfl
  | cons k ks ih =>
    simp only [diffObjGo, ih]
    cases hv : lookupKV avs k with
    | none => simp
    | some v =>
      simp only []
      by_cases hc : bothSameContainer v v = true
      · simp [hc, h1 k v hv]
      · simp [hc, h2 k v hv]

theorem allDicts_mem {xs : List JVal} (h : allDicts xs = true) {x : JVal} (hx : x ∈ xs) :
    ∃ kvs, x = .obj kvs := by
  rw [allDicts, List.all_eq_true] at h
  have := h x hx
  cases x <;> simp [JVal.isDict] at this
  exact ⟨_, rfl⟩

/-- An empty-shaped diff result (`{}` for non-list comparisons, `[]` for
list comparisons). -/
def emptyShape (x : JVal) : JVal :=
  match x with
  | .arr _ => .arr []
  | _ => .obj []

theorem diffJson_self : ∀ x, wfV x = true → ∀ full, diffJson x x full = emptyShape x := by
  suffices h : ∀ n x, sizeV x ≤ n → wfV x = true → ∀ full, diffJson x x full = emptyShape x from
    fun x hx full => h (sizeV x) x le_rfl hx full
  intro n
  induction n with
  | zero => intro x hx; have := sizeV_pos x; omega
  | succ n ih =>
    intro x hx hwf full
    match x with
    | .null => exact diffJson_null_null full
    | .bool b => simp [diffJson_eq, diffStep, pyEq, emptyShape, JVal.isDict, JVal.isList]
    | .num m => simp [diffJson_eq, diffStep, pyEq, emptyShape, JVal.isDict, JVal.isList]
    | .str s => simp [diffJson_eq, diffStep, pyEq, emptyShape, JVal.isDict, JVal.isList]
    | .obj kvs =>
      show diffJson (.obj kvs) (.obj kvs) full = .obj []
      rw [diffJson_obj_obj, diffObjStep]
      rw [diffObjGo_self (d := fun x y => diffJson x y full)]
      · intro k v hv
        have hs := sizeV_child_obj hv
        rw [ih v (by omega) (wfV_lookup hwf hv) full]
        cases v <;> simp [emptyShape, truthy]
      · intro k v hv
        exact pyEq_refl v (wfV_lookup hwf hv)
    | .arr xs =>
      show diffJson (.arr xs) (.arr xs) full = .arr []
      rw [diffJson_arr_arr, diffArrStep]
      by_cases had : allDicts xs = true
      · have hg : greedyMatchBy (fun x y => decide (diffJson x y false = JVal.obj [])) xs xs
            = (true, []) := by
          refine greedyMatchBy_self xs (fun v hv => ?_)
          have hs := sizeV_child_arr hv
          obtain ⟨kvs, rfl⟩ := allDicts_mem had hv
          rw [decide_eq_true_eq, ih _ (by omega) (wfV_mem hwf hv) false]
          rfl
        simp [had, hg]
      · have hpe : pyEq (.arr xs) (.arr xs) = true := pyEq_refl _ hwf
        simp [had, hpe]

/-! ## The compact and full diffs agree on emptiness -/

theorem truthy_obj_length {l1 l2 : List (String × JVal)} (h : l1.length = l2.length) :
    truthy (.obj l1) = truthy (.obj l2) := by
  cases l1 <;> cases l2 <;> simp_all [truthy]

theorem truthy_arr_length {l1 l2 : List JVal} (h : l1.length = l2.length) :
    truthy (.arr l1) = truthy (.arr l2) := by
  cases l1 <;> cases l2 <;> simp_all [truthy]

theorem diffObjGo_length_congr {d1 d2 : JVal → JVal → JVal}
    {avs bvs : List (String × JVal)} {full1 full2 : Bool}
    (h : ∀ k v, lookupKV avs k = some v → ∀ w, truthy (d1 v w) = truthy (d2 v w)) :
    ∀ ks, (diffObjGo d1 avs bvs full1 ks).length = (diffObjGo d2 avs bvs full2 ks).length := by
  intro ks
  induction ks with
  | nil => rfl
  | cons k ks ih =>
    simp only [diffObjGo]
    cases hva : lookupKV avs k with
    | none =>
      cases hvb : lookupKV bvs k with
      | none => simpa using ih
      | some vb => simpa using ih
    | some va =>
      cases hvb : lookupKV bvs k with
      | none => simpa using ih
      | some vb =>
        simp only []
        by_cases hc : bothSameContainer va vb = true
        · rw [if_pos hc, if_pos hc, h k va hva vb]
          by_cases ht : truthy (d2 va vb) = true
          · simp [ht, ih]
          · simp [ht, ih]
        · rw [if_neg hc, if_neg hc]
          by_cases hp : pyEq va vb = true
          · simp [hp, ih]
          · simp [hp, ih]

theorem diffIdxGo_length_congr {d1 d2 : JVal → JVal → JVal} {full1 full2 : Bool} :
    ∀ as, (∀ x ∈ as, ∀ y, truthy (d1 x y) = truthy (d2 x y)) →
    ∀ bs, (diffIdxGo d1 full1 as bs).length = (diffIdxGo d2 full2 as bs).length := by
  intro as
  induction as with
  | nil => intro _ bs; simp [diffIdxGo]
  | cons x xs ih =>
    intro h bs
    have hx := h x (List.mem_cons_self x xs)
    have hrest := fun z hz => h z (List.mem_cons_of_mem _ hz)
    cases bs with
    | nil => simp [diffIdxGo, ih hrest []]
    | cons y ys =>
      simp only [diffIdxGo]
      by_cases hc : bothSameContainer x y = true
      · rw [if_pos hc, if_pos hc, hx y]
        by_cases ht : truthy (d2 x y) = true
        · simp [ht, ih hrest ys]
        · simp [ht, ih hrest ys]
      · rw [if_neg hc, if_neg hc]
        by_cases hp : pyEq x y = true
        · simp [hp, ih hrest ys]
        · simp [hp, ih hrest ys]

theorem diffObjStep_truthy_mode {avs bvs : List (String × JVal)}
    (h : ∀ k v, lookupKV avs k = some v → ∀ y,
      truthy (diffJson v y true) = truthy (diffJson v y false)) :
    truthy (diffObjStep diffJson avs bvs true) = truthy (diffObjStep diffJson avs bvs false) := by
  unfold diffObjStep
  exact truthy_obj_length (diffObjGo_length_congr h _)

theorem diffArrStep_truthy_mode {as bs : List JVal}
    (h : ∀ x ∈ as, ∀ y, truthy (diffJson x y true) = truthy (diffJson x y false)) :
    truthy (diffArrStep diffJson as bs true) = truthy (diffArrStep diffJson as bs false) := by
  have hidx : truthy (JVal.arr (diffIdxGo (fun x y => diffJson x y true) true as bs))
      = truthy (JVal.arr (diffIdxGo (fun x y => diffJson x y false) false as bs)) :=
    truthy_arr_length (diffIdxGo_length_congr as h bs)
  unfold diffArrStep
  dsimp only
  split_ifs <;> first | rfl | exact hidx | simp [mkModBox, truthy]

theorem truthy_mode : ∀ a b, truthy (diffJson a b true) = truthy (diffJson a b false) := by
  suffices h : ∀ n a b, sizeV a ≤ n → truthy (diffJson a b true) = truthy (diffJson a b false)
    from fun a b => h (sizeV a) a b le_rfl
  intro n
  induction n with
  | zero => intro a b hs; have := sizeV_pos a; omega
  | succ n ih =>
    intro a b hs
    match a, b with
    | .obj avs, .obj bvs =>
      rw [diffJson_obj_obj, diffJson_obj_obj]
      exact diffObjStep_truthy_mode
        (fun k v hv y => ih v y (by have := sizeV_child_obj hv; omega))
    | .arr as, .arr bs =>
      rw [diffJson_arr_arr, diffJson_arr_arr]
      exact diffArrStep_truthy_mode
        (fun x hx y => ih x y (by have := sizeV_child_arr hx; omega))
    | .null, .null => rw [diffJson_null_null, diffJson_null_null]
    | .null, .bool _ | .null, .num _ | .null, .str _
    | .bool _, .null | .bool _, .bool _ | .bool _, .num _ | .bool _, .str _
    | .num _, .null | .num _, .bool _ | .num _, .num _ | .num _, .str _
    | .str _, .null | .str _, .bool _ | .str _, .num _ | .str _, .str _ =>
      simp only [diffJson_eq]
      simp [diffStep, JVal.isDict, JVal.isList, -truthy]
      split_ifs <;> simp [mkModBox, truthy]
    | .null, .arr _ | .null, .obj _ | .bool _, .arr _ | .bool _, .obj _
    | .num _, .arr _ | .num _, .obj _ | .str _, .arr _ | .str _, .obj _
    | .arr _, .null | .arr _, .bool _ | .arr _, .num _ | .arr _, .str _ | .arr _, .obj _
    | .obj _, .null | .obj _, .bool _ | .obj _, .num _ | .obj _, .str _ | .obj _, .arr _ =>
      simp [diffJson_eq, diffStep, truthy, mkModBox, JVal.isDict, JVal.isList]

/-! ## The two return branches of `calculate_json_accuracy` -/

theorem round4_zero : round4 0 = 0 := by norm_num [round4, roundQ]

theorem round4_one : round4 1 = 1 := by norm_num [round4, roundQ]

theorem calculate_empty {a p : JVal} {ic : Bool}
    (h : truthy (diffJson (processVal ic a) (processVal ic p) false) = false) :
    calculate_json_accuracy a p ic =
      ⟨1, .obj [], .obj [], ⟨0, 0, 0, 0⟩, count_total_fields (processVal ic a)⟩ := by
  unfold calculate_json_accuracy
  simp [h]

theorem calculate_nonempty {a p : JVal} {ic : Bool}
    (h : truthy (diffJson (processVal ic a) (processVal ic p) false) = true) :
    calculate_json_accuracy a p ic =
      ⟨round4
          (if count_total_fields (processVal ic a) = 0 then
            (if (count_changes (diffJson (processVal ic a) (processVal ic p) false)).total > 0
              then 0 else 1)
          else
            max 0 (1 -
              (((count_changes (diffJson (processVal ic a) (processVal ic p) false)).additions : ℚ)
                + (count_changes (diffJson (processVal ic a) (processVal ic p) false)).deletions
                + (count_changes (diffJson (processVal ic a) (processVal ic p) false)).modifications)
              / count_total_fields (processVal ic a))),
        diffJson (processVal ic a) (processVal ic p) false,
        diffJson (processVal ic a) (processVal ic p) true,
        count_changes (diffJson (processVal ic a) (processVal ic p) false),
        count_total_fields (processVal ic a)⟩ := by
  unfold calculate_json_accuracy
  simp [h]

/-! ## Claim theorems -/

/-- C1.  For every pair of JSON-like inputs, the returned score equals
`clamp(1 - (additions+deletions+modifications)/totalFields, 0, 1)` rounded
to 4 decimal places when `totalFields > 0`, and when `totalFields == 0` it
is `1.0` if the change tally's total is `0` and `0.0` otherwise. -/
theorem claim_score_formula (a p : JVal) (ic : Bool) :
    (calculate_json_accuracy a p ic).score =
      if (calculate_json_accuracy a p ic).totalFields = 0 then
        (if (calculate_json_accuracy a p ic).jsonDiffStats.total = 0 then 1 else 0)
      else
        round4 (max 0 (min (1 -
          (((calculate_json_accuracy a p ic).jsonDiffStats.additions : ℚ)
            + (calculate_json_accuracy a p ic).jsonDiffStats.deletions
            + (calculate_json_accuracy a p ic).jsonDiffStats.modifications)
          / (calculate_json_accuracy a p ic).totalFields) 1)) := by
  by_cases h : truthy (diffJson (processVal ic a) (processVal ic p) false) = true
  · rw [calculate_nonempty h]
    dsimp only
    by_cases htf : count_total_fields (processVal ic a) = 0
    · rw [if_pos htf, if_pos htf]
      by_cases htot : (count_changes (diffJson (processVal ic a) (processVal ic p) false)).total = 0
      · rw [if_pos htot, if_neg (by omega)]
        exact round4_one
      · rw [if_neg htot, if_pos (by omega)]
        exact round4_zero
    · rw [if_neg htf, if_neg htf]
      congr 1
      rw [min_eq_left]
      have h0 : (0 : ℚ) ≤
          (((count_changes (diffJson (processVal ic a) (processVal ic p) false)).additions : ℚ)
            + (count_changes (diffJson (processVal ic a) (processVal ic p) false)).deletions
            + (count_changes (diffJson (processVal ic a) (processVal ic p) false)).modifications)
          / count_total_fields (processVal ic a) := by positivity
      linarith
  · rw [Bool.not_eq_true] at h
    rw [calculate_empty h]
    dsimp only
    by_cases htf : count_total_fields (processVal ic a) = 0
    · rw [if_pos htf, if_pos rfl]
    · rw [if_neg htf]
      norm_num [round4_one]

/-- C2.  `calculate_json_accuracy(x, x)` returns score `1.0`, empty compact
and full diffs, and a change tally of `0`, for every JSON-like `x`. -/
theorem claim_identity (x : JVal) (h : x.wf = true) :
    (calculate_json_accuracy x x false).score = 1 ∧
    (calculate_json_accuracy x x false).jsonDiff = .obj [] ∧
    (calculate_json_accuracy x x false).fullJsonDiff = .obj [] ∧
    (calculate_json_accuracy x x false).jsonDiffStats.total = 0 := by
  have hd : diffJson x x false = emptyShape x := diffJson_self x h false
  have ht : truthy (diffJson (processVal false x) (processVal false x) false) = false := by
    show truthy (diffJson x x false) = false
    rw [hd]
    cases x <;> simp [emptyShape, truthy]
  rw [calculate_empty ht]
  exact ⟨rfl, rfl, rfl, rfl⟩

theorem claim_identity_witness :
    ((JVal.obj [("a", .arr [.num 1, .str "x"]), ("b", .null)]).wf = true) ∧
    ((calculate_json_accuracy (JVal.obj [("a", .arr [.num 1, .str "x"]), ("b", .null)])
        (JVal.obj [("a", .arr [.num 1, .str "x"]), ("b", .null)]) false).score = 1 ∧
      (calculate_json_accuracy (JVal.obj [("a", .arr [.num 1, .str "x"]), ("b", .null)])
        (JVal.obj [("a", .arr [.num 1, .str "x"]), ("b", .null)]) false).jsonDiff = .obj [] ∧
      (calculate_json_accuracy (JVal.obj [("a", .arr [.num 1, .str "x"]), ("b", .null)])
        (JVal.obj [("a", .arr [.num 1, .str "x"]), ("b", .null)]) false).fullJsonDiff = .obj [] ∧
      (calculate_json_accuracy (JVal.obj [("a", .arr [.num 1, .str "x"]), ("b", .null)])
        (JVal.obj [("a", .arr [.num 1, .str "x"]), ("b", .null)]) false).jsonDiffStats.total = 0) :=
  ⟨by decide, claim_identity _ (by decide)⟩

/-- C6.  With `ignore_cases=true` both inputs are recursively uppercased
before diffing and field counting, so the result is that of the plain
(`ignore_cases=false`) run on the uppercased inputs; `{"a": "Foo"}` versus
`{"a": "FOO"}` yields an empty diff and score `1.0` with the flag set, and
a modification node for key `a` without it. -/
theorem claim_ignore_cases :
    (∀ a p, calculate_json_accuracy a p true =
      calculate_json_accuracy (convert_strings_to_uppercase a)
        (convert_strings_to_uppercase p) false) ∧
    (calculate_json_accuracy (.obj [("a", .str "Foo")]) (.obj [("a", .str "FOO")]) true).jsonDiff
      = .obj [] ∧
    (calculate_json_accuracy (.obj [("a", .str "Foo")]) (.obj [("a", .str "FOO")]) true).score
      = 1 ∧
    (calculate_json_accuracy (.obj [("a", .str "Foo")]) (.obj [("a", .str "FOO")]) false).jsonDiff
      = .obj [("a", .obj [("__old", .str "Foo"), ("__new", .str "FOO")])] :=
  ⟨fun a p => rfl, by decide, by decide, by decide⟩

/-- C7.  The returned `fullJsonDiff` is the empty mapping iff the returned
`jsonDiff` is: the compact and full encodings agree on whether any
difference exists. -/
theorem claim_compact_full_empty_iff (a p : JVal) (ic : Bool) :
    (calculate_json_accuracy a p ic).fullJsonDiff = .obj [] ↔
      (calculate_json_accuracy a p ic).jsonDiff = .obj [] := by
  by_cases h : truthy (diffJson (processVal ic a) (processVal ic p) false) = true
  · rw [calculate_nonempty h]
    show diffJson (processVal ic a) (processVal ic p) true = .obj []
      ↔ diffJson (processVal ic a) (processVal ic p) false = .obj []
    constructor
    · intro hfull
      have hft : truthy (diffJson (processVal ic a) (processVal ic p) true) = false := by
        rw [hfull]; rfl
      rw [truthy_mode] at hft
      rw [hft] at h
      cases h
    · intro hcompact
      rw [hcompact] at h
      cases h
  · rw [Bool.not_eq_true] at h
    rw [calculate_empty h]

/-- C8.  The returned `totalFields` is computed from `actual` only: it
equals the leaf-field count of the (possibly uppercased) `actual`, and any
two predicted values give the same `totalFields`. -/
theorem claim_totalFields_from_actual (a p1 p2 : JVal) (ic : Bool) :
    (calculate_json_accuracy a p1 ic).totalFields
        = count_total_fields (processVal ic a) ∧
      (calculate_json_accuracy a p1 ic).totalFields
        = (calculate_json_accuracy a p2 ic).totalFields := by
  have h1 : ∀ p, (calculate_json_accuracy a p ic).totalFields
      = count_total_fields (processVal ic a) := by
    intro p
    by_cases h : truthy (diffJson (processVal ic a) (processVal ic p) false) = true
    · rw [calculate_nonempty h]
    · rw [Bool.not_eq_true] at h
      rw [calculate_empty h]
  exact ⟨h1 p1, (h1 p1).trans (h1 p2).symm⟩

/-- C10.  Primitive comparison uses Python's `==`, under which `True == 1`
and `False == 0`; hence `{"a": true}` versus `{"a": 1}` diffs empty and
scores `1.0`. -/
theorem claim_python_equality_bool_num :
    pyEq (.bool true) (.num 1) = true ∧ pyEq (.bool false) (.num 0) = true ∧
    diffJson (.obj [("a", .bool true)]) (.obj [("a", .num 1)]) false = .obj [] ∧
    (calculate_json_accuracy (.obj [("a", .bool true)]) (.obj [("a", .num 1)]) false).jsonDiff
      = .obj [] ∧
    (calculate_json_accuracy (.obj [("a", .bool true)]) (.obj [("a", .num 1)]) false).score
      = 1 := by
  refine ⟨by decide, by decide, by decide, by decide, by decide⟩

theorem if_zero_eq_max (m : Nat) : (if m = 0 then 1 else m) = max m 1 := by
  cases m <;> simp <;> omega

/-- C4.  When `count_changes` meets a modification box (a mapping with both
`__old` and `__new` keys), it adds to the modifications bucket the
leaf-field count of the new value if the old value is null, otherwise that
of the old value, with a floor of 1. -/
theorem claim_modbox_floor (kvs : List (String × JVal)) (o n : JVal)
    (ho : lookupKV kvs "__old" = some o) (hn : lookupKV kvs "__new" = some n) :
    count_changes (.obj kvs) =
      ⟨0, 0, max (if o = .null then count_total_fields n else count_total_fields o) 1,
        max (if o = .null then count_total_fields n else count_total_fields o) 1⟩ ∧
    1 ≤ max (if o = .null then count_total_fields n else count_total_fields o) 1 := by
  refine ⟨?_, le_max_right _ 1⟩
  unfold count_changes
  have hcc : ccTraverse (.obj kvs) = modBoxCount o n := by
    unfold ccTraverse
    rw [if_pos ⟨by simp [ho], by simp [hn]⟩, ho, hn]
    rfl
  rw [hcc]
  unfold modBoxCount
  by_cases h1 : o = JVal.null ∧ n ≠ JVal.null
  · obtain ⟨rfl, hn2⟩ := h1
    rw [if_pos ⟨rfl, hn2⟩]
    dsimp only
    rw [if_pos rfl, if_zero_eq_max]
    simp
  · rw [if_neg h1]
    dsimp only
    by_cases ho2 : o = JVal.null
    · subst ho2
      have hn2 : n = JVal.null := by
        by_contra hc
        exact h1 ⟨rfl, hc⟩
      subst hn2
      rw [if_pos rfl]
      rfl
    · rw [if_neg ho2, if_zero_eq_max]
      simp

theorem claim_modbox_floor_witness :
    (lookupKV [("__old", JVal.null), ("__new", .obj [("a", .num 1), ("b", .num 2)])] "__old"
      = some JVal.null) ∧
    (lookupKV [("__old", JVal.null), ("__new", .obj [("a", .num 1), ("b", .num 2)])] "__new"
      = some (.obj [("a", .num 1), ("b", .num 2)])) ∧
    (count_changes (.obj [("__old", JVal.null), ("__new", .obj [("a", .num 1), ("b", .num 2)])]) =
      ⟨0, 0, max (if JVal.null = JVal.null
          then count_total_fields (.obj [("a", .num 1), ("b", .num 2)])
          else count_total_fields JVal.null) 1,
        max (if JVal.null = JVal.null
          then count_total_fields (.obj [("a", .num 1), ("b", .num 2)])
          else count_total_fields JVal.null) 1⟩ ∧
      1 ≤ max (if JVal.null = JVal.null
        then count_total_fields (.obj [("a", .num 1), ("b", .num 2)])
        else count_total_fields JVal.null) 1) :=
  ⟨by decide, by decide, claim_modbox_floor _ _ _ (by decide) (by decide)⟩

/-- C5.  Two equal-length lists that are not both all-mapping and not equal
diff as a single whole-list modification box; lists of different lengths
get the index-wise comparison instead. -/
theorem claim_equal_length_list_modbox (l1 l2 : List JVal) (full : Bool)
    (had : ¬(allDicts l1 = true ∧ allDicts l2 = true)) :
    (l1.length = l2.length → pyEq (.arr l1) (.arr l2) = false →
      diffJson (.arr l1) (.arr l2) full = mkModBox full (.arr l1) (.arr l2)) ∧
    (l1.length ≠ l2.length →
      diffJson (.arr l1) (.arr l2) full
        = .arr (diffIdxGo (fun x y => diffJson x y full) full l1 l2)) := by
  rw [diffJson_arr_arr]
  unfold diffArrStep
  dsimp only
  have had2 : (allDicts l1 && allDicts l2) = false := by
    cases h1 : allDicts l1 <;> cases h2 : allDicts l2 <;> simp_all
  constructor
  · intro hlen hpe
    simp [had2, hpe, hlen]
  · intro hne
    have hpe : pyEq (.arr l1) (.arr l2) = false := by
      cases hp : pyEq (.arr l1) (.arr l2)
      · rfl
      · exact absurd (pyEq_arr_length hp) hne
    simp [had2, hpe, hne]

theorem claim_equal_length_list_modbox_witness :
    (¬(allDicts [JVal.num 1] = true ∧ allDicts [JVal.num 2] = true)) ∧
    (diffJson (.arr [JVal.num 1]) (.arr [JVal.num 2]) false
      = mkModBox false (.arr [JVal.num 1]) (.arr [JVal.num 2])) ∧
    (¬(allDicts [JVal.num 1] = true ∧ allDicts ([] : List JVal) = true)) ∧
    (diffJson (.arr [JVal.num 1]) (.arr []) false
      = .arr (diffIdxGo (fun x y => diffJson x y false) false [JVal.num 1] [])) :=
  ⟨by decide,
    (claim_equal_length_list_modbox [JVal.num 1] [JVal.num 2] false (by decide)).1
      (by decide) (by decide),
    by decide,
    (claim_equal_length_list_modbox [JVal.num 1] [] false (by decide)).2 (by decide)⟩

/-! ## The dict diff enumerates the sorted union of the key sets (C9) -/

theorem lexLeB_total : ∀ x y, lexLeB x y = true ∨ lexLeB y x = true := by
  intro x
  induction x with
  | nil => intro y; left; rfl
  | cons c cs ih =>
    intro y
    cases y with
    | nil => right; rfl
    | cons d ds =>
      simp only [lexLeB]
      rcases Nat.lt_trichotomy c.toNat d.toNat with h | h | h
      · left; simp [h]
      · rcases ih ds with h2 | h2
        · left; simp [h, h2]
        · right; simp [h.symm, h2]
      · right; simp [h]

theorem lexLeB_trans : ∀ x y z, lexLeB x y = true → lexLeB y z = true →
    lexLeB x z = true := by
  intro x
  induction x with
  | nil => intro y z _ _; rfl
  | cons c cs ih =>
    intro y z h1 h2
    cases y with
    | nil => cases h1
    | cons d ds =>
      cases z with
      | nil => cases h2
      | cons e es =>
        simp only [lexLeB] at h1 h2 ⊢
        split_ifs at h1 h2 ⊢ <;> first
          | rfl
          | omega
          | (exact ih ds es h1 h2)
          | (cases h1)
          | (cases h2)

theorem lexLeB_antisymm : ∀ x y, lexLeB x y = true → lexLeB y x = true → x = y := by
  intro x
  induction x with
  | nil => intro y h1 h2; cases y with
    | nil => rfl
    | cons d ds => cases h2
  | cons c cs ih =>
    intro y h1 h2
    cases y with
    | nil => cases h1
    | cons d ds =>
      simp only [lexLeB] at h1 h2
      split_ifs at h1 h2 <;> first
        | omega
        | (cases h1)
        | (cases h2)
        | (have he : c.toNat = d.toNat := by omega
           exact congrArg₂ _ (Char.eq_of_val_eq (UInt32.toNat.inj he)) (ih ds h1 h2))

instance : IsTotal String strLe :=
  ⟨fun a b => lexLeB_total a.data b.data⟩

instance : IsTrans String strLe :=
  ⟨fun a b c => lexLeB_trans a.data b.data c.data⟩

instance : IsAntisymm String strLe :=
  ⟨fun a b h1 h2 => String.ext (lexLeB_antisymm a.data b.data h1 h2)⟩

theorem sortedKeyUnion_perm (avs bvs : List (String × JVal)) :
    List.Perm (sortedKeyUnion avs bvs) ((keysOf avs ++ keysOf bvs).dedup) :=
  List.perm_insertionSort strLe _

theorem sortedKeyUnion_mem (avs bvs : List (String × JVal)) (k : String) :
    k ∈ sortedKeyUnion avs bvs ↔ k ∈ keysOf avs ∨ k ∈ keysOf bvs := by
  rw [(sortedKeyUnion_perm avs bvs).mem_iff, List.mem_dedup, List.mem_append]

theorem sortedKeyUnion_nodup (avs bvs : List (String × JVal)) :
    (sortedKeyUnion avs bvs).Nodup :=
  (sortedKeyUnion_perm avs bvs).nodup_iff.mpr (List.nodup_dedup _)

theorem sortedKeyUnion_sorted (avs bvs : List (String × JVal)) :
    (sortedKeyUnion avs bvs).Sorted strLe :=
  List.sorted_insertionSort strLe _

/-- The per-key action of the dict branch of `_diff_json` for one key of
the sorted union (source lines 112-147). -/
def objEntryFor (avs bvs : List (String × JVal)) (full : Bool) (k : String) :
    Option (String × JVal) :=
  match lookupKV avs k, lookupKV bvs k with
  | some va, none => some (delFieldEntry full k va)
  | none, some vb => some (addFieldEntry full k vb)
  | some va, some vb =>
    if bothSameContainer va vb then
      (if truthy (diffJson va vb full) then
        some (nestFieldEntry full k (diffJson va vb full))
      else none)
    else if pyEq va vb then none
    else some (k, mkModBox full va vb)
  | none, none => none

theorem diffObjGo_eq_filterMap (avs bvs : List (String × JVal)) (full : Bool) :
    ∀ ks, diffObjGo (fun x y => diffJson x y full) avs bvs full ks
      = ks.filterMap (objEntryFor avs bvs full) := by
  intro ks
  induction ks with
  | nil => rfl
  | cons k ks ih =>
    simp only [diffObjGo, List.filterMap_cons, ih, objEntryFor]
    cases hva : lookupKV avs k with
    | none =>
      cases hvb : lookupKV bvs k with
      | none => rfl
      | some vb => rfl
    | some va =>
      cases hvb : lookupKV bvs k with
      | none => rfl
      | some vb =>
        dsimp only
        by_cases hc : bothSameContainer va vb = true
        · by_cases ht : truthy (diffJson va vb full) = true
          · simp [hc, ht]
          · simp [hc, ht]
        · by_cases hp : pyEq va vb = true
          · simp [hc, hp]
          · simp [hc, hp]

/-- C9.  For every two mappings, the diff node (compact and full)
enumerates the union of the two key sets in lexicographically sorted
order: the result is exactly the per-key entries of `sortedKeyUnion`,
which contains a key iff it belongs to either mapping and is strictly
sorted in Python's string order.  The diff is a pure function of its
inputs, so repeated runs agree. -/
theorem claim_sorted_key_union (avs bvs : List (String × JVal)) (full : Bool) :
    diffJson (.obj avs) (.obj bvs) full
        = .obj ((sortedKeyUnion avs bvs).filterMap (objEntryFor avs bvs full)) ∧
      (∀ k, k ∈ sortedKeyUnion avs bvs ↔ k ∈ keysOf avs ∨ k ∈ keysOf bvs) ∧
      (sortedKeyUnion avs bvs).Pairwise (fun a b => strLe a b ∧ a ≠ b) := by
  refine ⟨?_, sortedKeyUnion_mem avs bvs, ?_⟩
  · rw [diffJson_obj_obj, diffObjStep, diffObjGo_eq_filterMap]
  · exact List.Pairwise.and (sortedKeyUnion_sorted avs bvs) (sortedKeyUnion_nodup avs bvs)

/-! ## First-fit greedy matching: characterization (towards C3)

Over a relation `p` that is reflexive, symmetric and transitive on a class
`W` of values, the greedy first-fit multiset match of the source succeeds
exactly when every `p`-class is equally frequent in both lists. -/

theorem removeFirstMatchBy_eq_none {q : JVal → Bool} :
    ∀ {l : List JVal}, removeFirstMatchBy q l = none ↔ ∀ y ∈ l, q y = false := by
  intro l
  induction l with
  | nil => simp [removeFirstMatchBy]
  | cons x xs ih =>
    by_cases hq : q x = true
    · simp [removeFirstMatchBy, hq]
    · rw [Bool.not_eq_true] at hq
      simp [removeFirstMatchBy, hq, Option.map_eq_none', ih]

theorem removeFirstMatchBy_eq_some {q : JVal → Bool} :
    ∀ {l l' : List JVal}, removeFirstMatchBy q l = some l' →
      ∃ u y v, l = u ++ y :: v ∧ l' = u ++ v ∧ q y = true ∧ ∀ z ∈ u, q z = false := by
  intro l
  induction l with
  | nil => intro l' h; cases h
  | cons x xs ih =>
    intro l' h
    by_cases hq : q x = true
    · simp only [removeFirstMatchBy, if_pos hq, Option.some.injEq] at h
      exact ⟨[], x, xs, rfl, by simp [h.symm], hq, by simp⟩
    · simp only [removeFirstMatchBy, if_neg hq] at h
      cases hrec : removeFirstMatchBy q xs with
      | none => rw [hrec] at h; cases h
      | some l'' =>
        rw [hrec] at h
        simp at h
        obtain ⟨u, y, v, hl, hl', hy, hu⟩ := ih hrec
        refine ⟨x :: u, y, v, by simp [hl], by simp [← h, hl'], hy, ?_⟩
        intro z hz
        rcases List.mem_cons.mp hz with rfl | hz
        · rwa [Bool.not_eq_true] at hq
        · exact hu z hz

theorem removeFirstMatchBy_isSome {q : JVal → Bool} :
    ∀ {l : List JVal}, (∃ y ∈ l, q y = true) → ∃ l', removeFirstMatchBy q l = some l' := by
  intro l hex
  cases h : removeFirstMatchBy q l with
  | none =>
    obtain ⟨y, hy, hqy⟩ := hex
    rw [removeFirstMatchBy_eq_none.mp h y hy] at hqy
    cases hqy
  | some l' => exact ⟨l', rfl⟩

theorem p_swap {p : JVal → JVal → Bool} {W : JVal → Prop}
    (hsym : ∀ x y, W x → W y → p x y = p y x)
    (htrans : ∀ x y z, W x → W y → W z → p x y = true → p y z = true → p x z = true)
    {x a y0 : JVal} (hx : W x) (ha : W a) (hy : W y0) (hay : p a y0 = true) :
    p x a = p x y0 := by
  cases hpa : p x a with
  | true => exact (htrans x a y0 hx ha hy hpa hay).symm
  | false =>
    cases hpy : p x y0 with
    | false => rfl
    | true =>
      have hya : p y0 a = true := by
        rw [← hsym a y0 ha hy]; exact hay
      rw [htrans x y0 a hx hy ha hpy hya] at hpa
      cases hpa

theorem greedy_char {p : JVal → JVal → Bool} {W : JVal → Prop}
    (hsym : ∀ x y, W x → W y → p x y = p y x)
    (htrans : ∀ x y z, W x → W y → W z → p x y = true → p y z = true → p x z = true)
    (hrefl : ∀ x, W x → p x x = true) :
    ∀ l1 l2 : List JVal, (∀ x ∈ l1, W x) → (∀ y ∈ l2, W y) → l1.length = l2.length →
      (greedyMatchBy p l1 l2 = (true, []) ↔
        ∀ x, W x → l1.countP (fun y => p x y) = l2.countP (fun y => p x y)) := by
  intro l1
  induction l1 with
  | nil =>
    intro l2 _ _ hlen
    obtain rfl : l2 = [] := List.length_eq_zero.mp hlen.symm
    simp [greedyMatchBy]
  | cons a t ih =>
    intro l2 hW1 hW2 hlen
    have hWa : W a := hW1 a (List.mem_cons_self a t)
    have hWt : ∀ x ∈ t, W x := fun x hx => hW1 x (List.mem_cons_of_mem _ hx)
    constructor
    · -- greedy success implies equal class counts
      intro hg x hWx
      rcases hrm : removeFirstMatchBy (p a) l2 with _ | l2'
      · rw [greedyMatchBy, hrm] at hg
        simp at hg
      · rw [greedyMatchBy, hrm] at hg
        dsimp only at hg
        obtain ⟨u, y0, v, hdec, hdec', hy0, _⟩ := removeFirstMatchBy_eq_some hrm
        have hWy0 : W y0 := hW2 y0 (hdec ▸ by simp)
        have hW2' : ∀ y ∈ l2', W y := by
          intro y hy
          refine hW2 y (hdec ▸ ?_)
          rw [hdec'] at hy
          rcases List.mem_append.mp hy with h | h
          · exact List.mem_append.mpr (Or.inl h)
          · exact List.mem_append.mpr (Or.inr (List.mem_cons_of_mem _ h))
        have hlen' : t.length = l2'.length := by
          have h2 : l2.length = l2'.length + 1 := by
            rw [hdec, hdec']; simp; omega
          simp only [List.length_cons] at hlen
          omega
        have hcount := (ih l2' hWt hW2' hlen').mp hg x hWx
        have hswap : p x a = p x y0 := p_swap hsym htrans hWx hWa hWy0 hy0
        rw [List.countP_cons, hcount, hdec, hdec']
        simp only [List.countP_append, List.countP_cons]
        rw [hswap]
        omega
    · -- equal class counts imply greedy success
      intro hcount
      have hpos : ∃ y ∈ l2, p a y = true := by
        have h1 : 0 < t.countP (fun y => p a y) + (if p a a then 1 else 0) := by
          simp [hrefl a hWa]
        have h2 : 0 < l2.countP (fun y => p a y) := by
          rw [← hcount a hWa, List.countP_cons]
          exact h1
        simpa using List.countP_pos_iff.mp h2
      obtain ⟨l2', hrm⟩ := removeFirstMatchBy_isSome hpos
      obtain ⟨u, y0, v, hdec, hdec', hy0, _⟩ := removeFirstMatchBy_eq_some hrm
      have hWy0 : W y0 := hW2 y0 (hdec ▸ by simp)
      have hW2' : ∀ y ∈ l2', W y := by
        intro y hy
        refine hW2 y (hdec ▸ ?_)
        rw [hdec'] at hy
        rcases List.mem_append.mp hy with h | h
        · exact List.mem_append.mpr (Or.inl h)
        · exact List.mem_append.mpr (Or.inr (List.mem_cons_of_mem _ h))
      have hlen' : t.length = l2'.length := by
        have h2 : l2.length = l2'.length + 1 := by
          rw [hdec, hdec']; simp; omega
        simp only [List.length_cons] at hlen
        omega
      have hcount' : ∀ x, W x → t.countP (fun y => p x y) = l2'.countP (fun y => p x y) := by
        intro x hWx
        have hswap : p x a = p x y0 := p_swap hsym htrans hWx hWa hWy0 hy0
        have hc := hcount x hWx
        rw [List.countP_cons, hdec] at hc
        rw [hdec']
        simp only [List.countP_append, List.countP_cons] at hc ⊢
        rw [hswap] at hc
        omega
      rw [greedyMatchBy, hrm]
      dsimp only
      exact (ih l2' hWt hW2' hlen').mpr hcount'

/-! ## Shape and emptiness helpers for the diff -/

/-- The runtime kind of a value: 0 for scalars and null, 1 for lists, 2
for dicts. -/
def JVal.kind : JVal → Nat
  | .arr _ => 1
  | .obj _ => 2
  | _ => 0

theorem truthy_ite_box (c : Bool) (f : Bool) (x y : JVal) :
    truthy (if c = true then JVal.obj [] else mkModBox f x y) = !c := by
  cases c <;> cases f <;> simp [mkModBox, truthy]

theorem diff_truthy_of_kind_ne :
    ∀ x y, x.kind ≠ y.kind → truthy (diffJson x y false) = true := by
  intro x y h
  match x, y with
  | .null, .null | .null, .bool _ | .null, .num _ | .null, .str _
  | .bool _, .null | .bool _, .bool _ | .bool _, .num _ | .bool _, .str _
  | .num _, .null | .num _, .bool _ | .num _, .num _ | .num _, .str _
  | .str _, .null | .str _, .bool _ | .str _, .num _ | .str _, .str _
  | .arr _, .arr _ | .obj _, .obj _ =>
    exact absurd rfl h
  | .null, .arr _ | .null, .obj _ | .bool _, .arr _ | .bool _, .obj _
  | .num _, .arr _ | .num _, .obj _ | .str _, .arr _ | .str _, .obj _
  | .arr _, .null | .arr _, .bool _ | .arr _, .num _ | .arr _, .str _ | .arr _, .obj _
  | .obj _, .null | .obj _, .bool _ | .obj _, .num _ | .obj _, .str _ | .obj _, .arr _ =>
    simp [diffJson_eq, diffStep, truthy, mkModBox, JVal.isDict, JVal.isList]

theorem scalar_diff_truthy :
    ∀ x y, x.kind = 0 → y.kind = 0 → truthy (diffJson x y false) = !(pyEq x y) := by
  intro x y hx hy
  match x, y with
  | .null, .null => rw [diffJson_null_null]; rfl
  | .null, .bool _ | .null, .num _ | .null, .str _
  | .bool _, .null | .bool _, .bool _ | .bool _, .num _ | .bool _, .str _
  | .num _, .null | .num _, .bool _ | .num _, .num _ | .num _, .str _
  | .str _, .null | .str _, .bool _ | .str _, .num _ | .str _, .str _ =>
    rw [diffJson_eq]
    unfold diffStep
    rw [if_neg (by simp)]
    rw [if_pos (by simp [JVal.isDict, JVal.isList])]
    exact truthy_ite_box _ _ _ _
  | .arr _, _ | .obj _, _ => simp [JVal.kind] at hx
  | .null, .arr _ | .null, .obj _ | .bool _, .arr _ | .bool _, .obj _
  | .num _, .arr _ | .num _, .obj _ | .str _, .arr _ | .str _, .obj _ =>
    simp [JVal.kind] at hy

theorem truthy_obj_false_iff {l : List (String × JVal)} :
    truthy (.obj l) = false ↔ l = [] := by
  cases l <;> simp [truthy]

theorem truthy_arr_false_iff {l : List JVal} :
    truthy (.arr l) = false ↔ l = [] := by
  cases l <;> simp [truthy]

theorem bothSameContainer_comm (x y : JVal) :
    bothSameContainer x y = bothSameContainer y x := by
  cases x <;> cases y <;> rfl

/-- The skip condition of the dict walk for one key: the key produces no
entry. -/
def objKeySkip (d : JVal → JVal → JVal) (avs bvs : List (String × JVal)) (k : String) :
    Prop :=
  match lookupKV avs k, lookupKV bvs k with
  | some va, some vb =>
    if bothSameContainer va vb = true then truthy (d va vb) = false
    else pyEq va vb = true
  | none, none => True
  | _, _ => False

theorem diffObjGo_eq_nil_iff {d : JVal → JVal → JVal}
    {avs bvs : List (String × JVal)} {full : Bool} :
    ∀ ks, (diffObjGo d avs bvs full ks = [] ↔ ∀ k ∈ ks, objKeySkip d avs bvs k) := by
  intro ks
  induction ks with
  | nil => simp [diffObjGo]
  | cons k ks ih =>
    simp only [diffObjGo, List.mem_cons]
    constructor
    · intro h k' hk'
      rcases hk' with rfl | hk'
      · unfold objKeySkip
        cases hva : lookupKV avs k' with
        | none =>
          cases hvb : lookupKV bvs k' with
          | none => trivial
          | some vb => rw [hva, hvb] at h; cases h
        | some va =>
          cases hvb : lookupKV bvs k' with
          | none => rw [hva, hvb] at h; cases h
          | some vb =>
            rw [hva, hvb] at h
            dsimp only at h ⊢
            by_cases hc : bothSameContainer va vb = true
            · rw [if_pos hc] at h ⊢
              by_cases ht : truthy (d va vb) = true
              · rw [if_pos ht] at h; cases h
              · rwa [Bool.not_eq_true] at ht
            · rw [if_neg hc] at h ⊢
              by_cases hp : pyEq va vb = true
              · exact hp
              · rw [if_neg hp] at h; cases h
      · refine (ih.mp ?_) k' hk'
        cases hva : lookupKV avs k with
        | none =>
          cases hvb : lookupKV bvs k with
          | none => rw [hva, hvb] at h; exact h
          | some vb => rw [hva, hvb] at h; cases h
        | some va =>
          cases hvb : lookupKV bvs k with
          | none => rw [hva, hvb] at h; cases h
          | some vb =>
            rw [hva, hvb] at h
            dsimp only at h
            by_cases hc : bothSameContainer va vb = true
            · rw [if_pos hc] at h
              by_cases ht : truthy (d va vb) = true
              · rw [if_pos ht] at h; cases h
              · rwa [if_neg ht] at h
            · rw [if_neg hc] at h
              by_cases hp : pyEq va vb = true
              · rwa [if_pos hp] at h
              · rw [if_neg hp] at h; cases h
    · intro h
      have hk := h k (Or.inl rfl)
      have hks := ih.mpr (fun k' hk' => h k' (Or.inr hk'))
      unfold objKeySkip at hk
      cases hva : lookupKV avs k with
      | none =>
        cases hvb : lookupKV bvs k with
        | none => dsimp only; exact hks
        | some vb => rw [hva, hvb] at hk; dsimp only at hk
      | some va =>
        cases hvb : lookupKV bvs k with
        | none => rw [hva, hvb] at hk; dsimp only at hk
        | some vb =>
          rw [hva, hvb] at hk
          dsimp only at hk
          dsimp only
          by_cases hc : bothSameContainer va vb = true
          · rw [if_pos hc] at hk
            rw [if_pos hc, hk]
            simpa using hks
          · rw [if_neg hc] at hk
            rw [if_neg hc, if_pos hk]
            exact hks

theorem diffIdxGo_ne_nil_of_length_ne {d : JVal → JVal → JVal} {full : Bool} :
    ∀ as bs : List JVal, as.length ≠ bs.length → diffIdxGo d full as bs ≠ [] := by
  intro as
  induction as with
  | nil =>
    intro bs h
    cases bs with
    | nil => exact absurd rfl h
    | cons y ys => simp [diffIdxGo]
  | cons x xs ih =>
    intro bs h
    cases bs with
    | nil => simp [diffIdxGo]
    | cons y ys =>
      have h' : xs.length ≠ ys.length := by simpa using h
      simp only [diffIdxGo]
      by_cases hc : bothSameContainer x y = true
      · rw [if_pos hc]
        by_cases ht : truthy (d x y) = true
        · simp [ht]
        · simp only [ht, if_false]
          exact ih ys h'
      · rw [if_neg hc]
        by_cases hp : pyEq x y = true
        · rw [if_pos hp]
          exact ih ys h'
        · simp [hp]

theorem diffIdxGo_eq_nil_iff {d : JVal → JVal → JVal} {full : Bool} :
    ∀ as bs : List JVal, as.length = bs.length →
      (diffIdxGo d full as bs = [] ↔
        List.Forall₂ (fun x y =>
          if bothSameContainer x y = true then truthy (d x y) = false
          else pyEq x y = true) as bs) := by
  intro as
  induction as with
  | nil =>
    intro bs hlen
    obtain rfl : bs = [] := List.length_eq_zero.mp hlen.symm
    simp [diffIdxGo]
  | cons x xs ih =>
    intro bs hlen
    cases bs with
    | nil => cases hlen
    | cons y ys =>
      have hlen' : xs.length = ys.length := by simpa using hlen
      simp only [diffIdxGo, List.forall₂_cons]
      by_cases hc : bothSameContainer x y = true
      · by_cases ht : truthy (d x y) = true
        · simp [hc, ht]
        · simp [hc, ht, ih ys hlen', Bool.eq_false_iff.mpr ht]
      · by_cases hp : pyEq x y = true
        · simp [hc, hp, ih ys hlen']
        · simp [hc, hp]

/-! ## Symmetry and transitivity helpers -/

theorem sortedKeyUnion_comm (avs bvs : List (String × JVal)) :
    sortedKeyUnion avs bvs = sortedKeyUnion bvs avs := by
  refine List.eq_of_perm_of_sorted ?_ (sortedKeyUnion_sorted avs bvs)
    (sortedKeyUnion_sorted bvs avs)
  refine (List.perm_ext_iff_of_nodup (sortedKeyUnion_nodup avs bvs)
    (sortedKeyUnion_nodup bvs avs)).mpr ?_
  intro k
  rw [sortedKeyUnion_mem, sortedKeyUnion_mem, or_comm]

theorem pyEq_kind {x y : JVal} (h : pyEq x y = true) : x.kind = y.kind := by
  cases x <;> cases y <;> simp_all [pyEq, JVal.kind]

theorem bothSameContainer_iff_kind {x y : JVal} :
    bothSameContainer x y = true ↔
      (x.kind = 1 ∧ y.kind = 1) ∨ (x.kind = 2 ∧ y.kind = 2) := by
  cases x <;> cases y <;>
    simp [bothSameContainer, JVal.kind, JVal.isDict, JVal.isList]

theorem diffObjGo_length_swap {d1 d2 : JVal → JVal → JVal}
    {avs bvs : List (String × JVal)} {full1 full2 : Bool}
    (h : ∀ k va vb, lookupKV avs k = some va → lookupKV bvs k = some vb →
      truthy (d1 va vb) = truthy (d2 vb va) ∧ pyEq va vb = pyEq vb va) :
    ∀ ks, (diffObjGo d1 avs bvs full1 ks).length
      = (diffObjGo d2 bvs avs full2 ks).length := by
  intro ks
  induction ks with
  | nil => rfl
  | cons k ks ih =>
    simp only [diffObjGo]
    cases hva : lookupKV avs k with
    | none =>
      cases hvb : lookupKV bvs k with
      | none => simpa using ih
      | some vb => simpa using ih
    | some va =>
      cases hvb : lookupKV bvs k with
      | none => simpa using ih
      | some vb =>
        obtain ⟨ht, hp⟩ := h k va vb hva hvb
        dsimp only
        rw [bothSameContainer_comm vb va] at *
        by_cases hc : bothSameContainer va vb = true
        · rw [if_pos hc, if_pos hc, ht]
          by_cases h2 : truthy (d2 vb va) = true
          · simp [h2, ih]
          · simp [h2, ih]
        · rw [if_neg hc, if_neg hc, hp]
          by_cases h2 : pyEq vb va = true
          · simp [h2, ih]
          · simp [h2, ih]

theorem diffIdxGo_nil_right_length {d : JVal → JVal → JVal} {full : Bool} :
    ∀ as : List JVal, (diffIdxGo d full as []).length = as.length := by
  intro as
  induction as with
  | nil => rfl
  | cons x xs ih => simp [diffIdxGo, ih]

theorem diffIdxGo_length_swap {d1 d2 : JVal → JVal → JVal} {full1 full2 : Bool} :
    ∀ as bs : List JVal,
      (∀ x ∈ as, ∀ y ∈ bs, truthy (d1 x y) = truthy (d2 y x) ∧ pyEq x y = pyEq y x) →
      (diffIdxGo d1 full1 as bs).length = (diffIdxGo d2 full2 bs as).length := by
  intro as
  induction as with
  | nil =>
    intro bs _
    simp [diffIdxGo, diffIdxGo_nil_right_length]
  | cons x xs ih =>
    intro bs h
    cases bs with
    | nil => simp [diffIdxGo, diffIdxGo_nil_right_length]
    | cons y ys =>
      obtain ⟨ht, hp⟩ := h x (List.mem_cons_self x xs) y (List.mem_cons_self y ys)
      have hrest : ∀ z ∈ xs, ∀ w ∈ ys, truthy (d1 z w) = truthy (d2 w z)
          ∧ pyEq z w = pyEq w z :=
        fun z hz w hw => h z (List.mem_cons_of_mem _ hz) w (List.mem_cons_of_mem _ hw)
      simp only [diffIdxGo]
      rw [bothSameContainer_comm y x]
      by_cases hc : bothSameContainer x y = true
      · rw [if_pos hc, if_pos hc, ht]
        by_cases h2 : truthy (d2 y x) = true
        · simp [h2, ih ys hrest]
        · simp [h2, ih ys hrest]
      · rw [if_neg hc, if_neg hc, hp]
        by_cases h2 : pyEq y x = true
        · simp [h2, ih ys hrest]
        · simp [h2, ih ys hrest]

theorem countP_eq_of_forall₂ {p : JVal → JVal → Bool} {W : JVal → Prop}
    (hsym : ∀ x y, W x → W y → p x y = p y x)
    (htrans : ∀ x y z, W x → W y → W z → p x y = true → p y z = true → p x z = true) :
    ∀ {l1 l2 : List JVal}, (∀ x ∈ l1, W x) → (∀ y ∈ l2, W y) →
      List.Forall₂ (fun x y => p x y = true) l1 l2 →
      ∀ x, W x → l1.countP (fun y => p x y) = l2.countP (fun y => p x y) := by
  intro l1 l2 hW1 hW2 hf
  induction hf with
  | nil => intro x _; rfl
  | cons hab htl ihtl =>
    rename_i a b t1 t2
    intro x hWx
    have hWa : W a := hW1 a (List.mem_cons_self a t1)
    have hWb : W b := hW2 b (List.mem_cons_self b t2)
    have hswap : p x a = p x b := p_swap hsym htrans hWx hWa hWb hab
    rw [List.countP_cons, List.countP_cons, hswap,
      ihtl (fun z hz => hW1 z (List.mem_cons_of_mem _ hz))
        (fun z hz => hW2 z (List.mem_cons_of_mem _ hz)) x hWx]

theorem pG_eq_not_truthy {x y : JVal} (hx : x.isDict = true) (hy : y.isDict = true) :
    (decide (diffJson x y false = JVal.obj []) : Bool)
      = !truthy (diffJson x y false) := by
  match x, y with
  | .obj avs, .obj bvs =>
    rw [diffJson_obj_obj, diffObjStep]
    cases diffObjGo (fun x y => diffJson x y false) avs bvs false (sortedKeyUnion avs bvs) with
    | nil => simp [truthy]
    | cons e es => simp [truthy]

theorem greedyMatchBy_true_length {p : JVal → JVal → Bool} :
    ∀ {l1 l2 pool : List JVal}, greedyMatchBy p l1 l2 = (true, pool) →
      pool.length + l1.length = l2.length := by
  intro l1
  induction l1 with
  | nil =>
    intro l2 pool h
    simp only [greedyMatchBy, Prod.mk.injEq] at h
    simp [h.2]
  | cons a t ih =>
    intro l2 pool h
    rcases hrm : removeFirstMatchBy (p a) l2 with _ | l2'
    · rw [greedyMatchBy, hrm] at h
      simp at h
    · rw [greedyMatchBy, hrm] at h
      dsimp only at h
      obtain ⟨u, y0, v, hdec, hdec', _, _⟩ := removeFirstMatchBy_eq_some hrm
      have := ih h
      rw [hdec, hdec'] at *
      simp only [List.length_append, List.length_cons] at *
      omega

theorem arr_mixed_empty_iff {l1 l2 : List JVal}
    (had : (allDicts l1 && allDicts l2) = false) :
    truthy (diffJson (.arr l1) (.arr l2) false) = false ↔
      pyEq (.arr l1) (.arr l2) = true := by
  rw [diffJson_arr_arr, diffArrStep]
  dsimp only
  rw [had]
  simp only [Bool.and_false, Bool.not_false, Bool.false_eq_true, if_false, if_true]
  cases hp : pyEq (.arr l1) (.arr l2) with
  | true =>
    simp [truthy]
  | false =>
    simp only [Bool.false_eq_true, if_false]
    constructor
    · intro hc
      exfalso
      by_cases hlen : l1.length ≠ l2.length
      · rw [if_pos hlen] at hc
        rw [truthy_arr_false_iff] at hc
        exact diffIdxGo_ne_nil_of_length_ne l1 l2 hlen hc
      · rw [if_neg hlen] at hc
        simp [mkModBox, truthy] at hc
    · intro hc
      exact absurd hc (by simp)

theorem arr_dicts_lenne_truthy {l1 l2 : List JVal}
    (had : (allDicts l1 && allDicts l2) = true) (hlen : l1.length ≠ l2.length) :
    truthy (diffJson (.arr l1) (.arr l2) false) = true := by
  rw [diffJson_arr_arr, diffArrStep]
  dsimp only
  rw [had]
  have hbeq : (l1.length == l2.length) = false := by
    simpa using hlen
  rw [hbeq]
  simp only [Bool.false_and, Bool.false_eq_true, if_false, Bool.not_true]
  cases hi : diffIdxGo (fun x y => diffJson x y false) false l1 l2 with
  | nil => exact absurd hi (diffIdxGo_ne_nil_of_length_ne l1 l2 hlen)
  | cons e es => simp [truthy]

theorem allDicts_isDict {xs : List JVal} (h : allDicts xs = true) {x : JVal}
    (hx : x ∈ xs) : x.isDict = true := by
  rw [allDicts, List.all_eq_true] at h
  exact h x hx

theorem allDicts_eq_of_pyEq {xs ys : List JVal}
    (h : pyEq (.arr xs) (.arr ys) = true) : allDicts xs = allDicts ys := by
  rw [pyEq, pyEqList_iff] at h
  induction h with
  | nil => rfl
  | cons hab htl ih =>
    rename_i a b t1 t2
    simp only [allDicts, List.all_cons] at ih ⊢
    rw [pyEq_isDict hab, ih]

theorem bool_eq_of_false_iff {a b : Bool} (h : (a = false) ↔ (b = false)) : a = b := by
  cases a <;> cases b <;> simp_all

theorem isDict_kind {x : JVal} (h : x.isDict = true) : x.kind = 2 := by
  cases x <;> simp_all [JVal.isDict, JVal.kind]

theorem kind_eq_one {x : JVal} (h : x.kind = 1) : ∃ xs, x = JVal.arr xs := by
  cases x <;> simp_all [JVal.kind]

theorem kind_eq_two {x : JVal} (h : x.kind = 2) : ∃ kvs, x = JVal.obj kvs := by
  cases x <;> simp_all [JVal.kind]

/-- `_diff_json(u, v, full=False) == {}`: the element-equivalence used by the
greedy multiset matcher (source line 164). -/
def diffEmptyB (u v : JVal) : Bool := decide (diffJson u v false = JVal.obj [])

theorem diffEmptyB_eq_not_truthy {x y : JVal} (hx : x.isDict = true)
    (hy : y.isDict = true) : diffEmptyB x y = !truthy (diffJson x y false) :=
  pG_eq_not_truthy hx hy

/-- Per-key transitivity of the skip condition, given transitivity of
diff-emptiness for the children. -/
theorem skipCond_trans {N : Nat}
    (iht : ∀ u v w, wfV u = true → wfV v = true → wfV w = true →
      sizeV u ≤ N → sizeV v ≤ N → sizeV w ≤ N →
      truthy (diffJson u v false) = false → truthy (diffJson v w false) = false →
      truthy (diffJson u w false) = false)
    {va vb vc : JVal} (hwa : wfV va = true) (hwb : wfV vb = true) (hwc : wfV vc = true)
    (hsa : sizeV va ≤ N) (hsb : sizeV vb ≤ N) (hsc : sizeV vc ≤ N)
    (h12 : if bothSameContainer va vb = true then truthy (diffJson va vb false) = false
      else pyEq va vb = true)
    (h23 : if bothSameContainer vb vc = true then truthy (diffJson vb vc false) = false
      else pyEq vb vc = true) :
    if bothSameContainer va vc = true then truthy (diffJson va vc false) = false
    else pyEq va vc = true := by
  by_cases hc12 : bothSameContainer va vb = true
  · rw [if_pos hc12] at h12
    have hk12 := bothSameContainer_iff_kind.mp hc12
    have hc23 : bothSameContainer vb vc = true := by
      by_cases h : bothSameContainer vb vc = true
      · exact h
      · rw [if_neg h] at h23
        have hkbc := pyEq_kind h23
        refine absurd (bothSameContainer_iff_kind.mpr ?_) h
        rcases hk12 with ⟨_, hb⟩ | ⟨_, hb⟩
        · exact Or.inl ⟨hb, by omega⟩
        · exact Or.inr ⟨hb, by omega⟩
    rw [if_pos hc23] at h23
    have hk23 := bothSameContainer_iff_kind.mp hc23
    have hc13 : bothSameContainer va vc = true := by
      refine bothSameContainer_iff_kind.mpr ?_
      rcases hk12 with ⟨ha, hb⟩ | ⟨ha, hb⟩ <;> rcases hk23 with ⟨hb', hcc⟩ | ⟨hb', hcc⟩
      · exact Or.inl ⟨ha, hcc⟩
      · omega
      · omega
      · exact Or.inr ⟨ha, hcc⟩
    rw [if_pos hc13]
    exact iht va vb vc hwa hwb hwc hsa hsb hsc h12 h23
  · rw [if_neg hc12] at h12
    have hkab := pyEq_kind h12
    have htri : ∀ v : JVal, v.kind = 0 ∨ v.kind = 1 ∨ v.kind = 2 := by
      intro v; cases v <;> simp [JVal.kind]
    have ha0 : va.kind = 0 := by
      rcases htri va with h0 | hk1 | hk2
      · exact h0
      · exact absurd (bothSameContainer_iff_kind.mpr (Or.inl ⟨hk1, by omega⟩)) hc12
      · exact absurd (bothSameContainer_iff_kind.mpr (Or.inr ⟨hk2, by omega⟩)) hc12
    have hb0 : vb.kind = 0 := by omega
    have hc23f : ¬ bothSameContainer vb vc = true := by
      intro h
      rcases bothSameContainer_iff_kind.mp h with ⟨hk1, _⟩ | ⟨hk1, _⟩ <;> omega
    rw [if_neg hc23f] at h23
    have hcz : vc.kind = 0 := by have := pyEq_kind h23; omega
    have hc13f : ¬ bothSameContainer va vc = true := by
      intro h
      rcases bothSameContainer_iff_kind.mp h with ⟨hk1, _⟩ | ⟨hk1, _⟩ <;> omega
    rw [if_neg hc13f]
    exact pyEq_trans hwa hwb hwc h12 h23

/-- If every key of the union is skipped, the two dicts have the same key set. -/
theorem objKeySkip_isSome {d : JVal → JVal → JVal} {avs bvs : List (String × JVal)}
    (h : ∀ k ∈ sortedKeyUnion avs bvs, objKeySkip d avs bvs k) :
    ∀ k, (lookupKV avs k).isSome = (lookupKV bvs k).isSome := by
  intro k
  cases hva : lookupKV avs k with
  | none =>
    cases hvb : lookupKV bvs k with
    | none => rfl
    | some vb =>
      have hk : k ∈ sortedKeyUnion avs bvs :=
        (sortedKeyUnion_mem avs bvs k).mpr
          (Or.inr (lookupKV_isSome_iff.mp (by rw [hvb]; rfl)))
      have hs := h k hk
      unfold objKeySkip at hs
      rw [hva, hvb] at hs
      dsimp only at hs
  | some va =>
    cases hvb : lookupKV bvs k with
    | none =>
      have hk : k ∈ sortedKeyUnion avs bvs :=
        (sortedKeyUnion_mem avs bvs k).mpr
          (Or.inl (lookupKV_isSome_iff.mp (by rw [hva]; rfl)))
      have hs := h k hk
      unfold objKeySkip at hs
      rw [hva, hvb] at hs
      dsimp only at hs
    | some vb => rfl

/-- For lists of dicts the index-wise skip condition is exactly pairwise
diff-emptiness. -/
theorem forall₂_skip_iff :
    ∀ l1 l2 : List JVal, allDicts l1 = true → allDicts l2 = true →
      (List.Forall₂ (fun x y =>
          if bothSameContainer x y = true then truthy (diffJson x y false) = false
          else pyEq x y = true) l1 l2 ↔
        List.Forall₂ (fun x y => diffEmptyB x y = true) l1 l2) := by
  intro l1
  induction l1 with
  | nil =>
    intro l2 _ _
    cases l2 <;> simp
  | cons x xs ih =>
    intro l2 h1 h2
    cases l2 with
    | nil => simp
    | cons y ys =>
      simp only [allDicts, List.all_cons, Bool.and_eq_true] at h1 h2
      have hx : JVal.isDict x = true := h1.1
      have hy : JVal.isDict y = true := h2.1
      have hbs : bothSameContainer x y = true := by
        rw [bothSameContainer, hx, hy]; rfl
      rw [List.forall₂_cons, List.forall₂_cons, ih ys h1.2 h2.2]
      constructor
      · rintro ⟨ha, hrest⟩
        refine ⟨?_, hrest⟩
        rw [diffEmptyB_eq_not_truthy hx hy, Bool.not_eq_true']
        rwa [if_pos hbs] at ha
      · rintro ⟨ha, hrest⟩
        refine ⟨?_, hrest⟩
        rw [if_pos hbs]
        rwa [diffEmptyB_eq_not_truthy hx hy, Bool.not_eq_true'] at ha

/-- The class of well-formed dicts of bounded size, on which diff-emptiness
is an equivalence (given the inductive hypotheses). -/
def Wdict (N : Nat) (v : JVal) : Prop :=
  JVal.isDict v = true ∧ wfV v = true ∧ sizeV v ≤ N

theorem Wdict_sym {N : Nat}
    (ihs : ∀ u v, wfV u = true → wfV v = true → sizeV u ≤ N → sizeV v ≤ N →
      truthy (diffJson u v false) = truthy (diffJson v u false)) :
    ∀ u v, Wdict N u → Wdict N v → diffEmptyB u v = diffEmptyB v u := by
  rintro u v ⟨hdu, hwu, hsu⟩ ⟨hdv, hwv, hsv⟩
  rw [diffEmptyB_eq_not_truthy hdu hdv, diffEmptyB_eq_not_truthy hdv hdu,
    ihs u v hwu hwv hsu hsv]

theorem Wdict_trans {N : Nat}
    (iht : ∀ u v w, wfV u = true → wfV v = true → wfV w = true →
      sizeV u ≤ N → sizeV v ≤ N → sizeV w ≤ N →
      truthy (diffJson u v false) = false → truthy (diffJson v w false) = false →
      truthy (diffJson u w false) = false) :
    ∀ u v w, Wdict N u → Wdict N v → Wdict N w → diffEmptyB u v = true →
      diffEmptyB v w = true → diffEmptyB u w = true := by
  rintro u v w ⟨hdu, hwu, hsu⟩ ⟨hdv, hwv, hsv⟩ ⟨hdw, hww, hsw⟩ h1 h2
  rw [diffEmptyB_eq_not_truthy hdu hdv, Bool.not_eq_true'] at h1
  rw [diffEmptyB_eq_not_truthy hdv hdw, Bool.not_eq_true'] at h2
  rw [diffEmptyB_eq_not_truthy hdu hdw, Bool.not_eq_true']
  exact iht u v w hwu hwv hww hsu hsv hsw h1 h2

theorem Wdict_refl {N : Nat} : ∀ u, Wdict N u → diffEmptyB u u = true := by
  rintro u ⟨hdu, hwu, _⟩
  rw [diffEmptyB_eq_not_truthy hdu hdu, Bool.not_eq_true']
  obtain ⟨kvs, rfl⟩ := kind_eq_two (isDict_kind hdu)
  rw [diffJson_self _ hwu]
  rfl

theorem Wdict_of_mem {N : Nat} {l : List JVal} (hd : allDicts l = true)
    (hw : wfV (JVal.arr l) = true) (hs : sizeV (JVal.arr l) ≤ N + 1) :
    ∀ v ∈ l, Wdict N v := by
  intro v hv
  refine ⟨allDicts_isDict hd hv, wfV_mem hw hv, ?_⟩
  have := sizeV_child_arr hv
  omega

/-- For equal-length lists of dicts from a class on which diff-emptiness is
an equivalence, the list diff is empty iff the two lists agree on the count
of every equivalence class (multiset equality up to diff-emptiness). -/
theorem arr_dicts_empty_iff_counts (W : JVal → Prop) {l1 l2 : List JVal}
    (hsym : ∀ x y, W x → W y → diffEmptyB x y = diffEmptyB y x)
    (htrans : ∀ x y z, W x → W y → W z → diffEmptyB x y = true →
      diffEmptyB y z = true → diffEmptyB x z = true)
    (hrefl : ∀ x, W x → diffEmptyB x x = true)
    (hW1 : ∀ x ∈ l1, W x) (hW2 : ∀ y ∈ l2, W y)
    (had : (allDicts l1 && allDicts l2) = true)
    (hlen : l1.length = l2.length) :
    (truthy (diffJson (JVal.arr l1) (JVal.arr l2) false) = false ↔
      ∀ x, W x →
        l1.countP (fun y => diffEmptyB x y) = l2.countP (fun y => diffEmptyB x y)) := by
  have hchar := greedy_char hsym htrans hrefl l1 l2 hW1 hW2 hlen
  obtain ⟨hd1, hd2⟩ : allDicts l1 = true ∧ allDicts l2 = true := by
    rw [← Bool.and_eq_true]; exact had
  have hbeq : (l1.length == l2.length) = true := by simp [hlen]
  rw [diffJson_arr_arr, diffArrStep]
  dsimp only
  rw [if_pos (show (l1.length == l2.length && (allDicts l1 && allDicts l2)) = true by
    rw [hbeq, had]; rfl)]
  have hpe : (fun x y => decide (diffJson x y false = JVal.obj [])) = diffEmptyB := rfl
  rw [hpe]
  rcases hgm : greedyMatchBy diffEmptyB l1 l2 with ⟨b, pool⟩
  cases b with
  | true =>
    have hplen := greedyMatchBy_true_length hgm
    have hpool : pool = [] := List.length_eq_zero.mp (by omega)
    subst hpool
    rw [if_pos (show (((true, ([] : List JVal)).1
      && ((true, ([] : List JVal)).2).isEmpty) = true) from rfl)]
    constructor
    · intro _
      exact hchar.mp hgm
    · intro _
      rfl
  | false =>
    rw [if_neg (show ¬(((false, pool).1 && ((false, pool).2).isEmpty) = true) by simp)]
    rw [if_neg (by simp [had])]
    rw [truthy_arr_false_iff]
    rw [diffIdxGo_eq_nil_iff l1 l2 hlen]
    have hiff := forall₂_skip_iff l1 l2 hd1 hd2
    constructor
    · intro hf x hx
      exact countP_eq_of_forall₂ hsym htrans hW1 hW2 (hiff.mp hf) x hx
    · intro hcnt
      have hg2 := hchar.mpr hcnt
      rw [hgm] at hg2
      exact absurd hg2 (by simp)

/-- Symmetry and transitivity of compact diff-emptiness on well-formed values,
by strong induction on a size bound.  Together with reflexivity
(`diffJson_self`) this makes "compact diff is empty" an equivalence relation,
which is what justifies the first-fit greedy multiset matching of the list
branch. -/
theorem E_master : ∀ N : Nat,
    (∀ x y, wfV x = true → wfV y = true → sizeV x ≤ N → sizeV y ≤ N →
      truthy (diffJson x y false) = truthy (diffJson y x false)) ∧
    (∀ x y z, wfV x = true → wfV y = true → wfV z = true →
      sizeV x ≤ N → sizeV y ≤ N → sizeV z ≤ N →
      truthy (diffJson x y false) = false → truthy (diffJson y z false) = false →
      truthy (diffJson x z false) = false) := by
  intro N
  induction N with
  | zero =>
    constructor
    · intro x y _ _ hx _
      have := sizeV_pos x; omega
    · intro x y z _ _ _ hx _ _ _ _
      have := sizeV_pos x; omega
  | succ N ih =>
    obtain ⟨ihs, iht⟩ := ih
    constructor
    · intro x y hwx hwy hsx hsy
      by_cases hk : x.kind = y.kind
      · have htri : x.kind = 0 ∨ x.kind = 1 ∨ x.kind = 2 := by
          cases x <;> simp [JVal.kind]
        rcases htri with h0 | h1 | h2
        · rw [scalar_diff_truthy x y h0 (by omega), scalar_diff_truthy y x (by omega) h0,
            pyEq_symm hwx hwy]
        · obtain ⟨as, rfl⟩ := kind_eq_one h1
          obtain ⟨bs, rfl⟩ := kind_eq_one (show JVal.kind y = 1 by omega)
          by_cases had : (allDicts as && allDicts bs) = true
          · obtain ⟨hd1, hd2⟩ : allDicts as = true ∧ allDicts bs = true := by
              rw [← Bool.and_eq_true]; exact had
            have had2 : (allDicts bs && allDicts as) = true := by
              rw [Bool.and_comm]; exact had
            by_cases hlen : as.length = bs.length
            · have hsym' := Wdict_sym ihs
              have htrans' := Wdict_trans iht
              have hW1 := Wdict_of_mem hd1 hwx hsx
              have hW2 := Wdict_of_mem hd2 hwy hsy
              apply bool_eq_of_false_iff
              rw [arr_dicts_empty_iff_counts (Wdict N) hsym' htrans' Wdict_refl
                  hW1 hW2 had hlen,
                arr_dicts_empty_iff_counts (Wdict N) hsym' htrans' Wdict_refl
                  hW2 hW1 had2 hlen.symm]
              constructor
              · intro h u hu; exact (h u hu).symm
              · intro h u hu; exact (h u hu).symm
            · rw [arr_dicts_lenne_truthy had hlen,
                arr_dicts_lenne_truthy had2 (fun h => hlen h.symm)]
          · have had' : (allDicts as && allDicts bs) = false := Bool.eq_false_iff.mpr had
            have had2' : (allDicts bs && allDicts as) = false := by
              rw [Bool.and_comm]; exact had'
            apply bool_eq_of_false_iff
            rw [arr_mixed_empty_iff had', arr_mixed_empty_iff had2',
              pyEq_symm hwx hwy]
        · obtain ⟨avs, rfl⟩ := kind_eq_two h2
          obtain ⟨bvs, rfl⟩ := kind_eq_two (show JVal.kind y = 2 by omega)
          rw [diffJson_obj_obj, diffJson_obj_obj, diffObjStep, diffObjStep,
            sortedKeyUnion_comm bvs avs]
          apply truthy_obj_length
          apply diffObjGo_length_swap
          intro k va vb hva hvb
          have hwa := wfV_lookup hwx hva
          have hwb := wfV_lookup hwy hvb
          have hsa : sizeV va ≤ N := by have := sizeV_child_obj hva; omega
          have hsb : sizeV vb ≤ N := by have := sizeV_child_obj hvb; omega
          exact ⟨ihs va vb hwa hwb hsa hsb, pyEq_symm hwa hwb⟩
      · rw [diff_truthy_of_kind_ne x y hk, diff_truthy_of_kind_ne y x (Ne.symm hk)]
    · intro x y z hwx hwy hwz hsx hsy hsz h12 h23
      have hk12 : x.kind = y.kind := by
        by_contra h
        rw [diff_truthy_of_kind_ne x y h] at h12
        simp at h12
      have hk23 : y.kind = z.kind := by
        by_contra h
        rw [diff_truthy_of_kind_ne y z h] at h23
        simp at h23
      have htri : x.kind = 0 ∨ x.kind = 1 ∨ x.kind = 2 := by
        cases x <;> simp [JVal.kind]
      rcases htri with h0 | h1 | h2
      · rw [scalar_diff_truthy x y h0 (by omega)] at h12
        rw [scalar_diff_truthy y z (by omega) (by omega)] at h23
        rw [scalar_diff_truthy x z h0 (by omega)]
        simp only [Bool.not_eq_false'] at h12 h23 ⊢
        exact pyEq_trans hwx hwy hwz h12 h23
      · obtain ⟨as, rfl⟩ := kind_eq_one h1
        obtain ⟨bs, rfl⟩ := kind_eq_one (show JVal.kind y = 1 by omega)
        obtain ⟨cs, rfl⟩ := kind_eq_one (show JVal.kind z = 1 by omega)
        by_cases had1 : (allDicts as && allDicts bs) = true
        · obtain ⟨hd1, hd2⟩ : allDicts as = true ∧ allDicts bs = true := by
            rw [← Bool.and_eq_true]; exact had1
          have hlen1 : as.length = bs.length := by
            by_contra hne
            rw [arr_dicts_lenne_truthy had1 hne] at h12
            simp at h12
          have hd3 : allDicts cs = true := by
            by_cases h : (allDicts bs && allDicts cs) = true
            · obtain ⟨_, h2'⟩ : allDicts bs = true ∧ allDicts cs = true := by
                rw [← Bool.and_eq_true]; exact h
              exact h2'
            · have h' : (allDicts bs && allDicts cs) = false := Bool.eq_false_iff.mpr h
              have hp := (arr_mixed_empty_iff h').mp h23
              have heq := allDicts_eq_of_pyEq hp
              rw [← heq]
              exact hd2
          have had2 : (allDicts bs && allDicts cs) = true := by rw [hd2, hd3]; rfl
          have had3 : (allDicts as && allDicts cs) = true := by rw [hd1, hd3]; rfl
          have hlen2 : bs.length = cs.length := by
            by_contra hne
            rw [arr_dicts_lenne_truthy had2 hne] at h23
            simp at h23
          have hsym' := Wdict_sym ihs
          have htrans' := Wdict_trans iht
          have hW1 := Wdict_of_mem hd1 hwx hsx
          have hW2 := Wdict_of_mem hd2 hwy hsy
          have hW3 := Wdict_of_mem hd3 hwz hsz
          have hc1 := (arr_dicts_empty_iff_counts (Wdict N) hsym' htrans' Wdict_refl
            hW1 hW2 had1 hlen1).mp h12
          have hc2 := (arr_dicts_empty_iff_counts (Wdict N) hsym' htrans' Wdict_refl
            hW2 hW3 had2 hlen2).mp h23
          refine (arr_dicts_empty_iff_counts (Wdict N) hsym' htrans' Wdict_refl
            hW1 hW3 had3 (hlen1.trans hlen2)).mpr ?_
          intro u hu
          exact (hc1 u hu).trans (hc2 u hu)
        · have had1' : (allDicts as && allDicts bs) = false := Bool.eq_false_iff.mpr had1
          have hp12 := (arr_mixed_empty_iff had1').mp h12
          have hadeq := allDicts_eq_of_pyEq hp12
          have hbf : allDicts bs = false := by
            cases hab : allDicts bs with
            | false => rfl
            | true =>
              exfalso
              apply had1
              rw [hadeq.trans hab, hab]
              rfl
          have had2' : (allDicts bs && allDicts cs) = false := by rw [hbf]; rfl
          have hp23 := (arr_mixed_empty_iff had2').mp h23
          have had3' : (allDicts as && allDicts cs) = false := by
            rw [hadeq, hbf]; rfl
          exact (arr_mixed_empty_iff had3').mpr (pyEq_trans hwx hwy hwz hp12 hp23)
      · obtain ⟨avs, rfl⟩ := kind_eq_two h2
        obtain ⟨bvs, rfl⟩ := kind_eq_two (show JVal.kind y = 2 by omega)
        obtain ⟨cvs, rfl⟩ := kind_eq_two (show JVal.kind z = 2 by omega)
        rw [diffJson_obj_obj, diffObjStep, truthy_obj_false_iff, diffObjGo_eq_nil_iff]
          at h12 h23 ⊢
        intro k hk
        have hiso12 := objKeySkip_isSome h12
        have hiso23 := objKeySkip_isSome h23
        have hsa : (lookupKV avs k).isSome = true := by
          rcases (sortedKeyUnion_mem avs cvs k).mp hk with hka | hkc
          · exact lookupKV_isSome_iff.mpr hka
          · rw [hiso12 k, hiso23 k]
            exact lookupKV_isSome_iff.mpr hkc
        have hsb : (lookupKV bvs k).isSome = true := by rw [← hiso12 k]; exact hsa
        have hsc : (lookupKV cvs k).isSome = true := by rw [← hiso23 k]; exact hsb
        obtain ⟨va, hva⟩ := Option.isSome_iff_exists.mp hsa
        obtain ⟨vb, hvb⟩ := Option.isSome_iff_exists.mp hsb
        obtain ⟨vc, hvc⟩ := Option.isSome_iff_exists.mp hsc
        have hs12 := h12 k ((sortedKeyUnion_mem avs bvs k).mpr
          (Or.inl (lookupKV_isSome_iff.mp hsa)))
        have hs23 := h23 k ((sortedKeyUnion_mem bvs cvs k).mpr
          (Or.inl (lookupKV_isSome_iff.mp hsb)))
        unfold objKeySkip at hs12 hs23 ⊢
        rw [hva, hvb] at hs12
        rw [hvb, hvc] at hs23
        rw [hva, hvc]
        dsimp only at hs12 hs23 ⊢
        exact skipCond_trans iht (wfV_lookup hwx hva) (wfV_lookup hwy hvb)
          (wfV_lookup hwz hvc)
          (by have := sizeV_child_obj hva; omega)
          (by have := sizeV_child_obj hvb; omega)
          (by have := sizeV_child_obj hvc; omega) hs12 hs23

/-- C3: two lists of mappings that are permutations of each other with
identical elements (same length, every element of both a mapping) have an
empty diff in both compact and full mode; the match is found by the
first-fit greedy multiset matcher over elements with empty compact diff
(`greedyMatchBy diffEmptyB`), which succeeds with an exhausted pool; and
`calculate_json_accuracy` on inputs differing only by such a reordering
returns score 1 with empty diffs. -/
theorem claim_order_insensitive (l1 l2 : List JVal)
    (hw : wfV (JVal.arr l1) = true) (hd : allDicts l1 = true)
    (hperm : List.Perm l1 l2) :
    greedyMatchBy diffEmptyB l1 l2 = (true, []) ∧
    (∀ full, diffJson (JVal.arr l1) (JVal.arr l2) full = JVal.arr []) ∧
    (calculate_json_accuracy (JVal.arr l1) (JVal.arr l2) false).score = 1 ∧
    (calculate_json_accuracy (JVal.arr l1) (JVal.arr l2) false).jsonDiff = JVal.obj [] ∧
    (calculate_json_accuracy (JVal.arr l1) (JVal.arr l2) false).fullJsonDiff
      = JVal.obj [] := by
  have hlen := hperm.length_eq
  have hd2 : allDicts l2 = true := by
    rw [allDicts, List.all_eq_true]
    intro x hx
    exact allDicts_isDict hd (hperm.mem_iff.mpr hx)
  have hW1 : ∀ v ∈ l1, Wdict (sizeV (JVal.arr l1)) v := by
    intro v hv
    refine ⟨allDicts_isDict hd hv, wfV_mem hw hv, ?_⟩
    have := sizeV_child_arr hv
    omega
  have hW2 : ∀ v ∈ l2, Wdict (sizeV (JVal.arr l1)) v := by
    intro v hv
    have hv1 : v ∈ l1 := hperm.mem_iff.mpr hv
    refine ⟨allDicts_isDict hd hv1, wfV_mem hw hv1, ?_⟩
    have := sizeV_child_arr hv1
    omega
  obtain ⟨ihs, iht⟩ := E_master (sizeV (JVal.arr l1))
  have hgm : greedyMatchBy diffEmptyB l1 l2 = (true, []) := by
    refine (greedy_char (Wdict_sym ihs) (Wdict_trans iht) Wdict_refl l1 l2
      hW1 hW2 hlen).mpr ?_
    intro x _
    exact hperm.countP_eq _
  have hdiff : ∀ full, diffJson (JVal.arr l1) (JVal.arr l2) full = JVal.arr [] := by
    intro full
    rw [diffJson_arr_arr, diffArrStep]
    dsimp only
    rw [if_pos (show (l1.length == l2.length && (allDicts l1 && allDicts l2)) = true by
      rw [hd, hd2]; simp [hlen])]
    have hpe : (fun x y => decide (diffJson x y false = JVal.obj [])) = diffEmptyB := rfl
    rw [hpe, hgm]
    rw [if_pos (show (((true, ([] : List JVal)).1
      && ((true, ([] : List JVal)).2).isEmpty) = true) from rfl)]
  have hempty : truthy (diffJson (processVal false (JVal.arr l1))
      (processVal false (JVal.arr l2)) false) = false := by
    show truthy (diffJson (JVal.arr l1) (JVal.arr l2) false) = false
    rw [hdiff false]
    rfl
  have hcalc := calculate_empty hempty
  exact ⟨hgm, hdiff, by rw [hcalc], by rw [hcalc], by rw [hcalc]⟩

/-- Concrete instance of C3: the two-element list of distinct mappings,
reversed, diffs empty with score 1. -/
theorem claim_order_insensitive_witness :
    wfV (JVal.arr [JVal.obj [("a", JVal.num 1)], JVal.obj [("b", JVal.num 2)]]) = true ∧
    allDicts [JVal.obj [("a", JVal.num 1)], JVal.obj [("b", JVal.num 2)]] = true ∧
    List.Perm [JVal.obj [("a", JVal.num 1)], JVal.obj [("b", JVal.num 2)]]
      [JVal.obj [("b", JVal.num 2)], JVal.obj [("a", JVal.num 1)]] ∧
    (calculate_json_accuracy
        (JVal.arr [JVal.obj [("a", JVal.num 1)], JVal.obj [("b", JVal.num 2)]])
        (JVal.arr [JVal.obj [("b", JVal.num 2)], JVal.obj [("a", JVal.num 1)]])
        false).score = 1 :=
  ⟨by decide, by decide, List.Perm.swap _ _ _,
    (claim_order_insensitive _ _ (by decide) (by decide)
      (List.Perm.swap _ _ _)).2.2.1⟩
